import Mathlib

/-!
Shallow embedding of the document-discovery and metadata-normalization
logic of the second-brain-app repository (file
`src/app/api/documents/route.ts`, which bundles the documents library:
`getMetaFromFile`, `getBodyContent`, `getAllDocuments`, `getDocument`).

Modelling conventions:
* The filesystem is a finite tree: an `Entry` is a regular file or a
  directory holding a list of named entries; the configured root
  (`BRAIN_PATH`) is a directory listing `Fs`.
* A file's raw bytes are abstracted by the two views the code takes of
  them: `matter` is the gray-matter parse (frontmatter fields used by the
  code, plus the body text) and `json` is the `JSON.parse` result, `none`
  when parsing would throw (malformed sidecar).
* JavaScript `a || b` on possibly-absent strings is modelled by
  `jsOrS` / `jsOrD` (`undefined` and `""` are falsy); on arrays by
  `Option.getD`-chaining (an array, even empty, is truthy).
* `fs.readFileSync` applied to a directory and `fs.readdirSync` applied
  to a regular file throw; functions that can hit those paths return
  `Except Unit` (`.error ()` = an exception escapes). `getMetaFromFile`
  catches, so it stays total.
* `localeCompare` is modelled as code-point (lexicographic) string
  comparison, which is what the spec asks of the date ordering.
* Identifiers are interpreted as slash-separated segment sequences;
  `path.join` normalization of `..`, duplicate or trailing separators is
  not modelled.
-/

/-- Metadata fields the code reads from frontmatter or from a sidecar
`meta.json`: title, date, tags, summary, each possibly absent. -/
structure Meta where
  title : Option String := none
  date : Option String := none
  tags : Option (List String) := none
  summary : Option String := none
deriving DecidableEq

/-- Abstraction of a regular file's content: its gray-matter view
(frontmatter fields plus body text) and its JSON view (`none` when
`JSON.parse` would throw). -/
structure FileContent where
  matter : Meta × String := ({}, "")
  json : Option Meta := none
deriving DecidableEq

/-- A filesystem entry: a regular file or a directory with named children. -/
inductive Entry where
  | file (c : FileContent)
  | dir (entries : List (String × Entry))

/-- A directory listing; the configured root is one of these. -/
abbrev Fs := List (String × Entry)

/-- Lookup of a name in a directory listing (the model of resolving one
path segment). -/
def findEntry (es : List (String × Entry)) (n : String) : Option Entry :=
  (es.find? (fun p => p.1 == n)).map Prod.snd

/-- True on directory entries (model of `stat.isDirectory()`). -/
def Entry.isDir : Entry → Bool
  | .dir _ => true
  | .file _ => false

/-- JavaScript truthiness of a possibly-absent string: `undefined` and
the empty string are falsy. -/
def truthyS : Option String → Bool
  | none => false
  | some s => !(s == "")

/-- JavaScript `a || b` where both operands are possibly-absent strings. -/
def jsOrS (a b : Option String) : Option String :=
  if truthyS a then a else b

/-- JavaScript `a || d` where the right operand is a present string. -/
def jsOrD (a : Option String) (d : String) : String :=
  if truthyS a then a.getD "" else d

/-- The global dash-to-space replace used for title fallbacks. -/
def dashToSpace (s : String) : String :=
  ⟨s.data.map (fun c => if c = '-' then ' ' else c)⟩

/-- Drop the first occurrence of `.md` from a character list (JavaScript
`String.prototype.replace` with a plain-string pattern replaces only the
first occurrence). -/
def stripMdChars : List Char → List Char
  | [] => []
  | c :: cs =>
    if c = '.' ∧ cs.take 2 = ['m', 'd'] then cs.drop 2
    else c :: stripMdChars cs

/-- The `.replace('.md', '')` transform used when building identifiers. -/
def stripMd (s : String) : String := ⟨stripMdChars s.data⟩

/-- The `.endsWith('.md')` test. -/
def endsMd (s : String) : Bool := decide (s.data.reverse.take 3 = ['d', 'm', '.'])

/-- True when a string contains no path separator. -/
def noSlash (s : String) : Bool := !(s.data.contains '/')

/-- The `.slice(0, -1)` transform singularizing a type-folder name. -/
def dropLastChar (s : String) : String := ⟨s.data.dropLast⟩

/-- Split a character list at every `/` (model of `String.split('/')`). -/
def splitSlashChars : List Char → List (List Char)
  | [] => [[]]
  | c :: cs =>
    if c = '/' then [] :: splitSlashChars cs
    else
      match splitSlashChars cs with
      | [] => [[c]]
      | h :: t => (c :: h) :: t

/-- Model of `id.split('/')`. -/
def splitSlash (s : String) : List String :=
  (splitSlashChars s.data).map (fun l => ⟨l⟩)

/-- List-view record emitted by the indexer (interface `DocumentMeta`);
optional fields model the optional properties of the TypeScript type, so
`tags := some l` is a present array property. -/
structure DocumentMeta where
  id : String
  title : String
  type : String
  category : Option String := none
  date : Option String := none
  tags : Option (List String) := none
  summary : Option String := none
deriving DecidableEq

/-- Full document returned by the loader (interface `Document`). -/
structure Document where
  id : String
  title : String
  type : String
  category : Option String := none
  date : Option String := none
  tags : Option (List String) := none
  summary : Option String := none
  content : String
  sections : Option (List String) := none
deriving DecidableEq

/-- Model of `getMetaFromFile(path.join(dir, 'meta.json'))`, taking the
containing directory's listing. A missing sidecar yields `{}`; a sidecar
whose read or parse throws is caught and also yields `{}` (the `catch`
block), so the function is total. -/
def getMetaFromFile (es : List (String × Entry)) : Meta :=
  match findEntry es "meta.json" with
  | some (.file c) => c.json.getD {}
  | some (.dir _) => {}
  | none => {}

/-- Model of `getBodyContent(docPath)`; `pathEndsMd` records whether the
path string ends in `.md`. `.error ()` models `readFileSync` throwing
when the chosen path is a directory. -/
def getBodyContent (e : Entry) (pathEndsMd : Bool) : Except Unit (Meta × String) :=
  match e with
  | .dir es =>
    match findEntry es "body.md" with
    | some (.file c) => .ok c.matter
    | some (.dir _) => .error ()
    | none =>
      match findEntry es "index.md" with
      | some (.file c) => .ok c.matter
      | some (.dir _) => .error ()
      | none => if pathEndsMd then .error () else .ok ({}, "")
  | .file c => if pathEndsMd then .ok c.matter else .ok ({}, "")

/-- The `hasBody` test: some child is named `body.md` or `index.md`. -/
def hasBodyB (es : List (String × Entry)) : Bool :=
  es.any (fun p => p.1 == "body.md" || p.1 == "index.md")

/-- Record pushed for a document folder directly under a type folder. -/
def docFolderMeta (t n : String) (fm meta : Meta) : DocumentMeta :=
  { id := t ++ "/" ++ n
    title := jsOrD fm.title (jsOrD meta.title (dashToSpace n))
    type := dropLastChar t
    category := if t == "projects" then some n else none
    date := jsOrS fm.date meta.date
    tags := some (fm.tags.getD (meta.tags.getD []))
    summary := jsOrS fm.summary meta.summary }

/-- Record pushed for a subdocument folder inside a category folder. -/
def subdirMeta (t cat n : String) (fm meta : Meta) : DocumentMeta :=
  { id := t ++ "/" ++ cat ++ "/" ++ n
    title := jsOrD fm.title (jsOrD meta.title (dashToSpace n))
    type := dropLastChar t
    category := some cat
    date := jsOrS fm.date meta.date
    tags := some (fm.tags.getD (meta.tags.getD []))
    summary := jsOrS fm.summary meta.summary }

/-- Record pushed for a markdown file inside a category folder; `n` is
the filename with its first `.md` removed. -/
def subFileMeta (t cat n : String) (fm : Meta) : DocumentMeta :=
  { id := t ++ "/" ++ cat ++ "/" ++ n
    title := jsOrD fm.title (dashToSpace n)
    type := dropLastChar t
    category := some cat
    date := fm.date
    tags := some (fm.tags.getD [])
    summary := fm.summary }

/-- Record pushed for a markdown file directly under a type folder; `n`
is the filename with its first `.md` removed. Note the title fallback is
the bare name, without dash replacement. -/
def flatFileMeta (t n : String) (fm : Meta) : DocumentMeta :=
  { id := t ++ "/" ++ n
    title := jsOrD fm.title n
    type := dropLastChar t
    category := none
    date := some (jsOrD fm.date n)
    tags := some (fm.tags.getD [])
    summary := fm.summary }

/-- Sequentially map an effectful list-producing function and
concatenate the results, aborting at the first exception (the shape of
the indexer's nested loops). -/
def exMapJoin (f : α → Except Unit (List β)) : List α → Except Unit (List β)
  | [] => .ok []
  | x :: xs =>
    match f x with
    | .error e => .error e
    | .ok l =>
      match exMapJoin f xs with
      | .error e => .error e
      | .ok ls => .ok (l ++ ls)

/-- Processing of one child of a category folder (the inner loop of
`getAllDocuments`): a child directory or a child markdown file each
yield one record; anything else yields none. -/
def procCatChild (t cat : String) (p : String × Entry) : Except Unit (List DocumentMeta) :=
  match p.2 with
  | .dir es =>
    match getBodyContent (.dir es) (endsMd p.1) with
    | .error e => .error e
    | .ok bc => .ok [subdirMeta t cat p.1 bc.1 (getMetaFromFile es)]
  | .file c =>
    if endsMd p.1 then
      match getBodyContent (.file c) (endsMd p.1) with
      | .error e => .error e
      | .ok bc => .ok [subFileMeta t cat (stripMd p.1) bc.1]
    else .ok []

/-- Processing of one entry of a type folder (the outer loop body of
`getAllDocuments`). -/
def procTypeEntry (t : String) (p : String × Entry) : Except Unit (List DocumentMeta) :=
  match p.2 with
  | .dir es =>
    if hasBodyB es then
      match getBodyContent (.dir es) (endsMd p.1) with
      | .error e => .error e
      | .ok bc => .ok [docFolderMeta t p.1 bc.1 (getMetaFromFile es)]
    else exMapJoin (procCatChild t p.1) es
  | .file c =>
    if endsMd p.1 then
      match getBodyContent (.file c) (endsMd p.1) with
      | .error e => .error e
      | .ok bc => .ok [flatFileMeta t (stripMd p.1) bc.1]
    else .ok []

/-- Processing of one type folder: a missing folder is skipped; a
regular file in its place makes `readdirSync` throw. -/
def procType (fs : Fs) (t : String) : Except Unit (List DocumentMeta) :=
  match findEntry fs t with
  | none => .ok []
  | some (.file _) => .error ()
  | some (.dir es) => exMapJoin (procTypeEntry t) es

/-- All records collected in loop order, before sorting. -/
def collectAll (fs : Fs) : Except Unit (List DocumentMeta) :=
  exMapJoin (procType fs) ["projects", "journals", "concepts"]

/-- Code-point lexicographic string comparison (the model of
`localeCompare(x) <= 0`), written over the character lists so that it
evaluates by kernel reduction. -/
def strLe (a b : String) : Bool := !(decide (List.Lex (· < ·) b.data a.data))

theorem strLe_iff {a b : String} : strLe a b = true ↔ a ≤ b := by
  rw [String.le_iff_toList_le]
  simp only [strLe, Bool.not_eq_true', decide_eq_false_iff_not]
  exact not_lt (a := b.toList) (b := a.toList)

/-- The comparator of `getAllDocuments`' final sort, as a
less-or-equal test: `docLeB a b` holds when the comparator puts `a` not
after `b` (compare result at most zero). The date tests are JavaScript
truthiness tests (`if (a.date && b.date)` and so on), so a present but
empty date string counts as no date. -/
def docLeB (a b : DocumentMeta) : Bool :=
  if truthyS a.date then
    if truthyS b.date then strLe (b.date.getD "") (a.date.getD "")
    else true
  else
    if truthyS b.date then false
    else strLe a.title b.title

/-- Propositional form of `docLeB`. -/
def docLe (a b : DocumentMeta) : Prop := docLeB a b = true

instance : DecidableRel docLe := fun a b =>
  inferInstanceAs (Decidable (docLeB a b = true))

instance : IsTotal DocumentMeta docLe := by
  constructor
  intro a b
  unfold docLe docLeB
  rcases hta : truthyS a.date with _ | _ <;> rcases htb : truthyS b.date with _ | _ <;>
    simp only [Bool.false_eq_true, if_false, if_true]
  · rcases le_total a.title b.title with h | h
    · exact Or.inl (strLe_iff.mpr h)
    · exact Or.inr (strLe_iff.mpr h)
  · trivial
  · trivial
  · rcases le_total (b.date.getD "") (a.date.getD "") with h | h
    · exact Or.inl (strLe_iff.mpr h)
    · exact Or.inr (strLe_iff.mpr h)

instance : IsTrans DocumentMeta docLe := by
  constructor
  intro a b c hab hbc
  unfold docLe docLeB at hab hbc ⊢
  rcases hta : truthyS a.date with _ | _ <;> rcases htb : truthyS b.date with _ | _ <;>
    rcases htc : truthyS c.date with _ | _ <;>
    rw [hta, htb] at hab <;> rw [htb, htc] at hbc <;>
    simp only [Bool.false_eq_true, if_false, if_true] at hab hbc ⊢
  · exact strLe_iff.mpr (le_trans (strLe_iff.mp hab) (strLe_iff.mp hbc))
  · exact strLe_iff.mpr (le_trans (strLe_iff.mp hbc) (strLe_iff.mp hab))

/-- Model of `getAllDocuments()`: walk the three type folders, then sort
with the date-descending comparator. The JavaScript engine's sort is
stable and the comparator is consistent, so the result coincides with a
stable insertion sort. -/
def getAllDocuments (fs : Fs) : Except Unit (List DocumentMeta) :=
  (collectAll fs).map (List.insertionSort docLe)

/-- Resolution of a segment path against a directory listing; descending
into a regular file fails (the joined path does not exist). -/
def resolvePath (es : List (String × Entry)) : List String → Option Entry
  | [] => none
  | [n] => findEntry es n
  | n :: ns =>
    match findEntry es n with
    | some (.dir d) => resolvePath d ns
    | _ => none

/-- Append `.md` to the last segment (the loader's second resolution
attempt, `docPath + '.md'`). -/
def withMdLast (parts : List String) : List String :=
  parts.dropLast ++ [parts.getLastD "" ++ ".md"]

/-- The loader's two-step resolution: the identifier's path directly,
then with `.md` appended; the flag records whether `.md` was appended. -/
def resolveId (fs : Fs) (id : String) : Option (Entry × Bool) :=
  match resolvePath fs (splitSlash id) with
  | some e => some (e, false)
  | none =>
    match resolvePath fs (withMdLast (splitSlash id)) with
    | some e => some (e, true)
    | none => none

/-- The sections list: names in the `sections` directory ending in
`.md`, extension stripped, in listing order. -/
def sectionNames (es : List (String × Entry)) : List String :=
  ((es.map Prod.fst).filter endsMd).map stripMd

/-- The Document object built in the loader's directory branch. -/
def dirDoc (id : String) (bc : Meta × String) (meta : Meta) (sections : List String) : Document :=
  { id := id
    title := jsOrD bc.1.title (jsOrD meta.title (dashToSpace ((splitSlash id).getLastD "")))
    type := dropLastChar ((splitSlash id).headD "")
    category := if 2 < (splitSlash id).length then some ((splitSlash id).getD 1 "") else none
    date := jsOrS bc.1.date meta.date
    tags := some (bc.1.tags.getD (meta.tags.getD []))
    summary := jsOrS bc.1.summary meta.summary
    content := bc.2
    sections := some sections }

/-- The Document object built in the loader's file branch. -/
def fileDoc (id : String) (bc : Meta × String) : Document :=
  { id := id
    title := jsOrD bc.1.title (dashToSpace ((splitSlash id).getLastD ""))
    type := dropLastChar ((splitSlash id).headD "")
    category := if 2 < (splitSlash id).length then some ((splitSlash id).getD 1 "") else none
    date := some (jsOrD bc.1.date ((splitSlash id).getLastD ""))
    tags := some (bc.1.tags.getD [])
    summary := bc.1.summary
    content := bc.2
    sections := none }

/-- Model of `getDocument(id)`. `.ok none` is the not-found result
(HTTP 404); `.error ()` is an escaping exception (HTTP 500). -/
def getDocument (fs : Fs) (id : String) : Except Unit (Option Document) :=
  match resolveId fs id with
  | none => .ok none
  | some (e, appended) =>
    match e with
    | .dir es =>
      match getBodyContent (.dir es) (appended || endsMd id) with
      | .error e2 => .error e2
      | .ok bc =>
        match findEntry es "sections" with
        | some (.file _) => .error ()
        | some (.dir ss) => .ok (some (dirDoc id bc (getMetaFromFile es) (sectionNames ss)))
        | none => .ok (some (dirDoc id bc (getMetaFromFile es) []))
    | .file c =>
      match getBodyContent (.file c) (appended || endsMd id) with
      | .error e2 => .error e2
      | .ok bc => .ok (some (fileDoc id bc))

/-! ### Basic string and path lemmas -/

theorem string_eta (s : String) : String.mk s.data = s := rfl

theorem data_append_slash (a b : String) :
    (a ++ "/" ++ b).data = a.data ++ '/' :: b.data := by
  rw [String.data_append, String.data_append, List.append_assoc]
  rfl

theorem noSlash_iff {s : String} : noSlash s = true ↔ '/' ∉ s.data := by
  simp [noSlash, List.contains]

theorem splitSlashChars_noSlash : ∀ l : List Char, '/' ∉ l → splitSlashChars l = [l]
  | [], _ => rfl
  | c :: cs, h => by
    have hc : ¬ c = '/' := by
      intro e
      exact h (by rw [← e]; exact List.mem_cons_self c cs)
    have ih := splitSlashChars_noSlash cs (fun m => h (List.mem_cons_of_mem _ m))
    simp only [splitSlashChars, if_neg hc, ih]

theorem splitSlashChars_append : ∀ (l1 l2 : List Char), '/' ∉ l1 →
    splitSlashChars (l1 ++ '/' :: l2) = l1 :: splitSlashChars l2
  | [], l2, _ => by simp [splitSlashChars]
  | c :: cs, l2, h => by
    have hc : ¬ c = '/' := by
      intro e
      exact h (by rw [← e]; exact List.mem_cons_self c cs)
    have ih := splitSlashChars_append cs l2 (fun m => h (List.mem_cons_of_mem _ m))
    simp only [List.cons_append, splitSlashChars, if_neg hc, List.append_eq, ih]

theorem splitSlash_noSlash (s : String) (h : noSlash s = true) : splitSlash s = [s] := by
  unfold splitSlash
  rw [splitSlashChars_noSlash s.data (noSlash_iff.mp h)]
  simp [string_eta]

theorem splitSlash_append (a b : String) (ha : noSlash a = true) :
    splitSlash (a ++ "/" ++ b) = a :: splitSlash b := by
  unfold splitSlash
  rw [data_append_slash, splitSlashChars_append a.data b.data (noSlash_iff.mp ha)]
  simp [string_eta]

theorem splitSlash_pair (a b : String) (ha : noSlash a = true) (hb : noSlash b = true) :
    splitSlash (a ++ "/" ++ b) = [a, b] := by
  rw [splitSlash_append a b ha, splitSlash_noSlash b hb]

theorem splitSlash_triple (a b c : String) (ha : noSlash a = true)
    (hb : noSlash b = true) (hc : noSlash c = true) :
    splitSlash (a ++ "/" ++ b ++ "/" ++ c) = [a, b, c] := by
  have assoc : a ++ "/" ++ b ++ "/" ++ c = a ++ "/" ++ (b ++ "/" ++ c) := by
    apply String.ext
    simp [String.data_append, List.append_assoc]
  rw [assoc, splitSlash_append _ _ ha, splitSlash_pair b c hb hc]

theorem endsMd_append_slash (a b : String) : endsMd (a ++ "/" ++ b) = endsMd b := by
  unfold endsMd
  rw [data_append_slash, List.reverse_append, List.reverse_cons, List.append_assoc,
    List.singleton_append]
  rcases hb : b.data.reverse with _ | ⟨x, xs⟩
  · simp
  · rcases xs with _ | ⟨y, ys⟩
    · simp
    · rcases ys with _ | ⟨z, zs⟩
      · simp
      · simp

theorem string_append_cancel_left {a b c : String} (h : a ++ b = a ++ c) : b = c := by
  apply String.ext
  have := congrArg String.data h
  rw [String.data_append, String.data_append] at this
  exact List.append_cancel_left this

/-! ### Lookup, strip and traversal lemmas -/

theorem findEntry_of_mem : ∀ (es : List (String × Entry)) (p : String × Entry),
    p ∈ es → (es.map Prod.fst).Nodup → findEntry es p.1 = some p.2
  | q :: es, p, hmem, hnd => by
    rcases List.mem_cons.mp hmem with rfl | htail
    · simp [findEntry]
    · have hne : q.1 ≠ p.1 := by
        intro e
        have : p.1 ∈ es.map Prod.fst := List.mem_map_of_mem _ htail
        rw [← e] at this
        exact (List.nodup_cons.mp (by simpa using hnd)).1 this
      have ih := findEntry_of_mem es p htail (List.nodup_cons.mp (by simpa using hnd)).2
      simp only [findEntry, List.find?] at ih ⊢
      rw [show (q.1 == p.1) = false from beq_eq_false_iff_ne.mpr hne]
      exact ih

theorem findEntry_none (es : List (String × Entry)) (n : String)
    (h : ∀ p ∈ es, p.1 ≠ n) : findEntry es n = none := by
  induction es with
  | nil => rfl
  | cons q es ih =>
    simp only [findEntry, List.find?]
    rw [show (q.1 == n) = false from beq_eq_false_iff_ne.mpr (h q (List.mem_cons_self q es))]
    exact ih (fun p hp => h p (List.mem_cons_of_mem _ hp))

theorem findEntry_mem {es : List (String × Entry)} {n : String} {e : Entry}
    (h : findEntry es n = some e) : (n, e) ∈ es := by
  induction es with
  | nil => simp [findEntry] at h
  | cons q es ih =>
    simp only [findEntry, List.find?] at h
    rcases hq : (q.1 == n) with _ | _
    · rw [hq] at h
      exact List.mem_cons_of_mem _ (ih h)
    · rw [hq] at h
      simp only [Option.map_some] at h
      have : q = (n, e) := by
        have h1 : q.1 = n := beq_iff_eq.mp hq
        have h2 : q.2 = e := by injection h
        cases q
        simp_all
      rw [← this]
      exact List.mem_cons_self q es

theorem stripMdChars_subset : ∀ l : List Char, stripMdChars l ⊆ l
  | [] => by simp [stripMdChars]
  | c :: cs => by
    unfold stripMdChars
    split
    · exact List.Subset.trans (List.drop_subset 2 cs) (List.subset_cons_self c cs)
    · exact List.cons_subset_cons c (stripMdChars_subset cs)

theorem noSlash_stripMd {s : String} (h : noSlash s = true) : noSlash (stripMd s) = true := by
  rw [noSlash_iff] at h ⊢
  exact fun m => h (stripMdChars_subset s.data m)

theorem exMapJoin_ok_mem {α β : Type _} {f : α → Except Unit (List β)} :
    ∀ {xs : List α} {l : List β}, exMapJoin f xs = .ok l → ∀ {b : β}, b ∈ l →
      ∃ x ∈ xs, ∃ lx, f x = .ok lx ∧ b ∈ lx := by
  intro xs
  induction xs with
  | nil =>
    intro l h b hb
    simp only [exMapJoin] at h
    injection h with h
    subst h
    simp at hb
  | cons x xs ih =>
    intro l h b hb
    simp only [exMapJoin] at h
    rcases hfx : f x with e | lx <;> rw [hfx] at h
    · exact absurd h (by simp)
    · rcases hrest : exMapJoin f xs with e | ls <;> rw [hrest] at h
      · exact absurd h (by simp)
      · injection h with h
        subst h
        rcases List.mem_append.mp hb with hl | hr
        · exact ⟨x, List.mem_cons_self x xs, lx, hfx, hl⟩
        · obtain ⟨y, hy, ly, hfy, hby⟩ := ih hrest hr
          exact ⟨y, List.mem_cons_of_mem _ hy, ly, hfy, hby⟩

/-! ### Inversion lemmas for the indexer -/

theorem procCatChild_ok_mem {t cat : String} {q : String × Entry} {lq : List DocumentMeta}
    (h : procCatChild t cat q = .ok lq) {d : DocumentMeta} (hd : d ∈ lq) :
    (∃ es2 bc, q.2 = .dir es2 ∧
       getBodyContent (.dir es2) (endsMd q.1) = .ok bc ∧
       d = subdirMeta t cat q.1 bc.1 (getMetaFromFile es2)) ∨
    (∃ c, q.2 = .file c ∧ endsMd q.1 = true ∧
       d = subFileMeta t cat (stripMd q.1) c.matter.1) := by
  unfold procCatChild at h
  split at h
  next es2 hq2 =>
    split at h
    · exact absurd h (by simp)
    next bc hbc =>
      injection h with h
      subst h
      exact Or.inl ⟨es2, bc, hq2, hbc, List.mem_singleton.mp hd⟩
  next c hq2 =>
    split at h
    next hmd =>
      split at h
      · exact absurd h (by simp)
      next bc hbc =>
        injection h with h
        subst h
        have hbc2 : bc = c.matter := by
          rw [hmd] at hbc
          simpa [getBodyContent] using hbc.symm
        exact Or.inr ⟨c, hq2, hmd, by
          rw [List.mem_singleton.mp hd, hbc2]⟩
    next hmd =>
      injection h with h
      subst h
      simp at hd

theorem procTypeEntry_ok_mem {t : String} {p : String × Entry} {lp : List DocumentMeta}
    (h : procTypeEntry t p = .ok lp) {d : DocumentMeta} (hd : d ∈ lp) :
    (∃ es bc, p.2 = .dir es ∧ hasBodyB es = true ∧
       getBodyContent (.dir es) (endsMd p.1) = .ok bc ∧
       d = docFolderMeta t p.1 bc.1 (getMetaFromFile es)) ∨
    (∃ es, p.2 = .dir es ∧ hasBodyB es = false ∧ ∃ q ∈ es,
       (∃ es2 bc, q.2 = .dir es2 ∧
          getBodyContent (.dir es2) (endsMd q.1) = .ok bc ∧
          d = subdirMeta t p.1 q.1 bc.1 (getMetaFromFile es2)) ∨
       (∃ c, q.2 = .file c ∧ endsMd q.1 = true ∧
          d = subFileMeta t p.1 (stripMd q.1) c.matter.1)) ∨
    (∃ c, p.2 = .file c ∧ endsMd p.1 = true ∧
       d = flatFileMeta t (stripMd p.1) c.matter.1) := by
  unfold procTypeEntry at h
  split at h
  next es hdir =>
    by_cases hbody : hasBodyB es = true
    · rw [if_pos hbody] at h
      split at h
      · exact absurd h (by simp)
      next bc hbc =>
        injection h with h
        subst h
        exact Or.inl ⟨es, bc, hdir, hbody, hbc, List.mem_singleton.mp hd⟩
    · rw [if_neg hbody] at h
      obtain ⟨q, hq, lq, hfq, hdq⟩ := exMapJoin_ok_mem h hd
      exact Or.inr (Or.inl ⟨es, hdir, Bool.not_eq_true _ ▸ eq_false_of_ne_true hbody,
        q, hq, procCatChild_ok_mem hfq hdq⟩)
  next c hfile =>
    split at h
    next hmd =>
      split at h
      · exact absurd h (by simp)
      next bc hbc =>
        injection h with h
        subst h
        have hbc2 : bc = c.matter := by
          rw [hmd] at hbc
          simpa [getBodyContent] using hbc.symm
        exact Or.inr (Or.inr ⟨c, hfile, hmd, by rw [List.mem_singleton.mp hd, hbc2]⟩)
    next hmd =>
      injection h with h
      subst h
      simp at hd

theorem procType_ok_mem {fs : Fs} {t : String} {lt : List DocumentMeta}
    (h : procType fs t = .ok lt) {d : DocumentMeta} (hd : d ∈ lt) :
    ∃ es, findEntry fs t = some (.dir es) ∧
      ∃ p ∈ es, ∃ lp, procTypeEntry t p = .ok lp ∧ d ∈ lp := by
  unfold procType at h
  split at h
  · injection h with h
    subst h
    simp at hd
  · exact absurd h (by simp)
  next es heq => exact ⟨es, heq, exMapJoin_ok_mem h hd⟩

theorem getAllDocuments_eq {fs : Fs} {l : List DocumentMeta}
    (h : getAllDocuments fs = .ok l) :
    ∃ l0, collectAll fs = .ok l0 ∧ l = List.insertionSort docLe l0 := by
  unfold getAllDocuments at h
  rcases hc : collectAll fs with e | l0 <;> rw [hc] at h
  · exact absurd h (by simp [Except.map])
  · refine ⟨l0, rfl, ?_⟩
    simp only [Except.map] at h
    injection h with h
    exact h.symm

theorem getAllDocuments_ok_mem {fs : Fs} {l : List DocumentMeta}
    (h : getAllDocuments fs = .ok l) {d : DocumentMeta} (hd : d ∈ l) :
    ∃ t ∈ (["projects", "journals", "concepts"] : List String),
      ∃ lt, procType fs t = .ok lt ∧ d ∈ lt := by
  obtain ⟨l0, hc, rfl⟩ := getAllDocuments_eq h
  exact exMapJoin_ok_mem hc ((List.mem_insertionSort docLe).mp hd)

/-! ### Small helpers about the JavaScript-or fallbacks -/

theorem jsOrD_truthy {a : Option String} {d : String} (h : truthyS a = true) :
    some (jsOrD a d) = a := by
  rcases a with _ | s
  · exact Bool.noConfusion h
  · simp [jsOrD, truthyS] at h ⊢
    simp [h]

theorem jsOrD_falsy {a : Option String} {d : String} (h : truthyS a = false) :
    jsOrD a d = d := by
  simp [jsOrD, h]

theorem jsOrD_truthy_eq {a : Option String} {d1 d2 : String} (h : truthyS a = true) :
    jsOrD a d1 = jsOrD a d2 := by
  simp [jsOrD, h]

theorem jsOrS_truthy {a b : Option String} (h : truthyS a = true) : jsOrS a b = a := by
  simp [jsOrS, h]

theorem jsOrS_falsy {a b : Option String} (h : truthyS a = false) : jsOrS a b = b := by
  simp [jsOrS, h]

instance {E A : Type _} [DecidableEq E] [DecidableEq A] : DecidableEq (Except E A) := fun a b =>
  match a, b with
  | .error e, .error f =>
    if h : e = f then .isTrue (by rw [h]) else .isFalse (fun c => h (by injection c))
  | .error _, .ok _ => .isFalse (fun c => Except.noConfusion c)
  | .ok _, .error _ => .isFalse (fun c => Except.noConfusion c)
  | .ok x, .ok y =>
    if h : x = y then .isTrue (by rw [h]) else .isFalse (fun c => h (by injection c))

/-! ### Claim C3: ordering of the indexer's output -/

/-- Modelled from the claim's wording, reading "has a date" as the date
field being present: any two dated records are date-descending, every
dated record precedes every undated one, and undated records are
title-ascending. -/
def sortSpecRel (a b : DocumentMeta) : Prop :=
  (match a.date, b.date with
   | some da, some db => db ≤ da
   | _, _ => True) ∧
  (b.date.isSome = true → a.date.isSome = true) ∧
  (a.date = none → b.date = none → a.title ≤ b.title)

/-- The ordering the code actually guarantees: a date counts only when
it is present and non-empty (JavaScript truthiness). -/
def sortSpecRelAmended (a b : DocumentMeta) : Prop :=
  (truthyS a.date = true → truthyS b.date = true → b.date.getD "" ≤ a.date.getD "") ∧
  (truthyS b.date = true → truthyS a.date = true) ∧
  (truthyS a.date = false → truthyS b.date = false → a.title ≤ b.title)

theorem docLe_sortSpecRelAmended {a b : DocumentMeta} (h : docLe a b) :
    sortSpecRelAmended a b := by
  unfold docLe docLeB at h
  unfold sortSpecRelAmended
  rcases hta : truthyS a.date with _ | _ <;> rcases htb : truthyS b.date with _ | _ <;>
    rw [hta, htb] at h <;>
    simp only [Bool.false_eq_true, if_false, if_true] at h
  · exact ⟨fun h1 => Bool.noConfusion h1, fun h1 => Bool.noConfusion h1,
      fun _ _ => strLe_iff.mp h⟩
  · exact ⟨fun _ h1 => Bool.noConfusion h1, fun h1 => Bool.noConfusion h1,
      fun h1 => Bool.noConfusion h1⟩
  · exact ⟨fun _ _ => strLe_iff.mp h, fun _ => rfl, fun h1 => Bool.noConfusion h1⟩

/-- Tree refuting C3 as stated: concept folder `a` has no date at all,
concept folder `z` has a sidecar date that is the empty string, so its
record's date field is present but empty. -/
def exC3bad : Fs :=
  [("concepts", .dir
     [("a", .dir [("body.md", .file { matter := ({}, ""), json := none })]),
      ("z", .dir
        [("body.md", .file { matter := ({}, ""), json := none }),
         ("meta.json", .file { matter := ({}, ""), json := some { date := some "" } })])])]

/-- C3 counterexample: the record for `concepts/z` carries the present
date `""`, yet the comparator's JavaScript truthiness tests treat it as
undated, so it is ordered by title after the date-less `concepts/a`
record — violating "every document with a date precedes every document
without one" as stated. -/
theorem claim_c3_counterexample :
    getAllDocuments exC3bad = .ok
      [{ id := "concepts/a", title := "a", type := "concept",
         category := none, date := none, tags := some [], summary := none },
       { id := "concepts/z", title := "z", type := "concept",
         category := none, date := some "", tags := some [], summary := none }] ∧
    ¬ sortSpecRel
      { id := "concepts/a", title := "a", type := "concept",
        category := none, date := none, tags := some [], summary := none }
      { id := "concepts/z", title := "z", type := "concept",
        category := none, date := some "", tags := some [], summary := none } := by
  constructor
  · decide
  · intro hrel
    exact Bool.noConfusion (hrel.2.1 rfl)

/-- Example tree for the sorting claim: two date-stamped journal files and
one undated concept folder. -/
def exC3 : Fs :=
  [("journals", .dir
      [("2024-01-01.md", .file { matter := ({}, ""), json := none }),
       ("2024-06-01.md", .file { matter := ({}, ""), json := none })]),
   ("concepts", .dir [("zeta", .dir [("body.md", .file { matter := ({}, ""), json := none })])])]

/-- C3 as amended: the output is sorted counting a date only when it is
present and non-empty (JavaScript truthiness): records with truthy dates
are mutually date-descending (lexicographic string comparison), every
record with a truthy date precedes every record whose date is absent or
empty, and the latter are mutually title-ascending; with dates
2024-01-01 and 2024-06-01 plus one undated document, the output date
order is 2024-06-01, 2024-01-01, then the undated document. -/
theorem claim_c3_amended :
    (∀ (fs : Fs) (l : List DocumentMeta), getAllDocuments fs = .ok l →
       l.Pairwise sortSpecRelAmended) ∧
    (getAllDocuments exC3).map (fun l => l.map DocumentMeta.date) =
      .ok [some "2024-06-01", some "2024-01-01", none] := by
  constructor
  · intro fs l h
    obtain ⟨l0, _, rfl⟩ := getAllDocuments_eq h
    exact (List.sorted_insertionSort docLe l0).imp docLe_sortSpecRelAmended
  · decide

/-- Witness for C3's amended statement at the example tree. -/
theorem claim_c3_amended_witness :
    ([{ id := "journals/2024-06-01", title := "2024-06-01", type := "journal",
        category := none, date := some "2024-06-01", tags := some [], summary := none },
      { id := "journals/2024-01-01", title := "2024-01-01", type := "journal",
        category := none, date := some "2024-01-01", tags := some [], summary := none },
      { id := "concepts/zeta", title := "zeta", type := "concept",
        category := none, date := none, tags := some [], summary := none }] :
      List DocumentMeta).Pairwise sortSpecRelAmended :=
  claim_c3_amended.1 exC3 _ (by decide)


/-! ### Claim C7: flat files directly under a type folder -/

/-- Modelled from the claim's words: the filename without its extension,
that is, with the trailing `.md` (three characters) removed. -/
def dropMdExt (s : String) : String := ⟨s.data.take (s.data.length - 3)⟩

theorem stripMd_eq_dropMdExt {n : String} (h : stripMd n ++ ".md" = n) :
    stripMd n = dropMdExt n := by
  unfold dropMdExt
  apply String.ext
  have hd : n.data = (stripMd n).data ++ ['.', 'm', 'd'] := by
    have h2 := congrArg String.data h
    rw [String.data_append] at h2
    exact h2.symm
  rw [hd, List.length_append]
  show (stripMd n).data = ((stripMd n).data ++ ['.', 'm', 'd']).take ((stripMd n).data.length + 3 - 3)
  rw [Nat.add_sub_cancel, List.take_left]

/-- Tree refuting C7 as stated: a flat journal file whose name contains
`.md` before the extension. -/
def exC7bad : Fs :=
  [("journals", .dir [("a.mdx.md", .file { matter := ({}, ""), json := none })])]

/-- C7 counterexample: for `journals/a.mdx.md` with no frontmatter date,
the code removes the FIRST occurrence of `.md` (JavaScript
`replace('.md','')`), giving date `ax.md`, while the claimed default —
the filename without its extension — is `a.mdx`. -/
theorem claim_c7_counterexample :
    getAllDocuments exC7bad = .ok
      [{ id := "journals/ax.md", title := "ax.md", type := "journal",
         category := none, date := some "ax.md", tags := some [], summary := none }] ∧
    dropMdExt "a.mdx.md" = "a.mdx" ∧
    some ("ax.md" : String) ≠ some ("a.mdx" : String) := by
  refine ⟨by decide, by decide, by decide⟩

/-- Content of the example journal file (no frontmatter fields). -/
def exC7fc : FileContent := { matter := ({}, "body"), json := none }

/-- Example tree: one date-stamped markdown file directly under `journals`. -/
def exC7 : Fs := [("journals", .dir [("2026-01-28.md", .file exC7fc)])]

/-- C7 as amended: a markdown file directly under a type folder yields
exactly one record with no category, whose date is the frontmatter date
when that is present and non-empty (JavaScript truthiness) and otherwise
defaults to the filename with its first occurrence of `.md` removed —
which coincides with the filename without its extension whenever `.md`
occurs in the name only as the final extension. In particular
`journals/2026-01-28.md` with no frontmatter date gets date `2026-01-28`. -/
theorem claim_c7_amended :
    (∀ (t n : String) (c : FileContent), endsMd n = true →
       procTypeEntry t (n, .file c) = .ok [flatFileMeta t (stripMd n) c.matter.1] ∧
       (flatFileMeta t (stripMd n) c.matter.1).category = none ∧
       (truthyS c.matter.1.date = true →
         (flatFileMeta t (stripMd n) c.matter.1).date = c.matter.1.date) ∧
       (truthyS c.matter.1.date = false →
         (flatFileMeta t (stripMd n) c.matter.1).date = some (stripMd n)) ∧
       (stripMd n ++ ".md" = n → stripMd n = dropMdExt n)) ∧
    getAllDocuments exC7 = .ok
      [{ id := "journals/2026-01-28", title := "2026-01-28", type := "journal",
         category := none, date := some "2026-01-28", tags := some [], summary := none }] := by
  constructor
  · intro t n c hmd
    refine ⟨?_, rfl, ?_, ?_, fun hext => stripMd_eq_dropMdExt hext⟩
    · unfold procTypeEntry
      simp only [hmd]
      rfl
    · intro h
      show some (jsOrD c.matter.1.date (stripMd n)) = c.matter.1.date
      exact jsOrD_truthy h
    · intro h
      show some (jsOrD c.matter.1.date (stripMd n)) = some (stripMd n)
      rw [jsOrD_falsy h]
  · decide

/-- Witness for C7's amended statement at the example file. -/
theorem claim_c7_amended_witness :
    procTypeEntry "journals" ("2026-01-28.md", .file exC7fc) =
      .ok [flatFileMeta "journals" (stripMd "2026-01-28.md") exC7fc.matter.1] ∧
    (flatFileMeta "journals" (stripMd "2026-01-28.md") exC7fc.matter.1).category = none ∧
    (truthyS exC7fc.matter.1.date = true →
      (flatFileMeta "journals" (stripMd "2026-01-28.md") exC7fc.matter.1).date =
        exC7fc.matter.1.date) ∧
    (truthyS exC7fc.matter.1.date = false →
      (flatFileMeta "journals" (stripMd "2026-01-28.md") exC7fc.matter.1).date =
        some (stripMd "2026-01-28.md")) ∧
    (stripMd "2026-01-28.md" ++ ".md" = "2026-01-28.md" →
      stripMd "2026-01-28.md" = dropMdExt "2026-01-28.md") :=
  claim_c7_amended.1 "journals" "2026-01-28.md" exC7fc (by decide)


/-! ### Claim C8: malformed sidecar files are caught -/

/-- Example tree: a concept folder whose `meta.json` fails to parse. -/
def exC8 : Fs :=
  [("concepts", .dir [("foo", .dir
     [("body.md", .file { matter := ({}, "text"), json := none }),
      ("meta.json", .file { matter := ({}, ""), json := none })])])]

/-- C8: a sidecar whose content fails to parse does not raise: the parse
error is caught and the sidecar treated as an empty record, so listing
still succeeds and the document's sidecar-derived fields are absent. -/
theorem claim_c8_malformed_sidecar :
    (∀ (es : List (String × Entry)) (c : FileContent),
       findEntry es "meta.json" = some (.file c) → c.json = none →
       getMetaFromFile es = {}) ∧
    getAllDocuments exC8 = .ok
      [{ id := "concepts/foo", title := "foo", type := "concept",
         category := none, date := none, tags := some [], summary := none }] := by
  constructor
  · intro es c hf hj
    unfold getMetaFromFile
    rw [hf]
    show c.json.getD {} = {}
    rw [hj]
    rfl
  · decide

/-- Witness for C8 at a one-entry directory with a malformed sidecar. -/
theorem claim_c8_malformed_sidecar_witness :
    getMetaFromFile [("meta.json", .file { matter := ({}, ""), json := none })] = {} :=
  claim_c8_malformed_sidecar.1
    [("meta.json", .file { matter := ({}, ""), json := none })]
    { matter := ({}, ""), json := none } rfl rfl

/-! ### Claim C10: tags and sections are always present arrays -/

/-- Example tree: one concept document folder supplying no tags and
having no sections subdirectory. -/
def exC10 : Fs :=
  [("concepts", .dir [("bar", .dir [("body.md", .file { matter := ({}, ""), json := none })])])]

/-- C10: every indexer record and every loader Document has `tags`
present (the empty array when no source supplies tags), and every
Document the loader returns for a directory-resolved identifier has
`sections` present (empty when there is no sections subdirectory). -/
theorem claim_c10_tags_sections_present :
    (∀ (fs : Fs) (l : List DocumentMeta), getAllDocuments fs = .ok l →
       ∀ d ∈ l, d.tags.isSome = true) ∧
    (∀ (fs : Fs) (id : String) (doc : Document), getDocument fs id = .ok (some doc) →
       doc.tags.isSome = true ∧
       ∀ es b, resolveId fs id = some (.dir es, b) → doc.sections.isSome = true) ∧
    (getAllDocuments exC10 = .ok
       [{ id := "concepts/bar", title := "bar", type := "concept",
          category := none, date := none, tags := some [], summary := none }] ∧
     getDocument exC10 "concepts/bar" = .ok (some
       { id := "concepts/bar", title := "bar", type := "concept",
         category := none, date := none, tags := some [], summary := none,
         content := "", sections := some [] })) := by
  refine ⟨?_, ?_, by decide, by decide⟩
  · intro fs l h d hd
    obtain ⟨t, _, lt1, hlt, hdlt⟩ := getAllDocuments_ok_mem h hd
    obtain ⟨es, _, p, _, lp, hlp, hdlp⟩ := procType_ok_mem hlt hdlt
    rcases procTypeEntry_ok_mem hlp hdlp with
      ⟨es1, bc, _, _, _, rfl⟩ | ⟨es1, _, _, q, _, ⟨es2, bc, _, _, rfl⟩ | ⟨c, _, _, rfl⟩⟩ |
      ⟨c, _, _, rfl⟩
    · rfl
    · rfl
    · rfl
    · rfl
  · intro fs id doc h
    unfold getDocument at h
    split at h
    · exact absurd h (by simp)
    next e appended heq =>
      split at h
      next es =>
        split at h
        · exact absurd h (by simp)
        next bc hbc =>
          split at h
          · exact absurd h (by simp)
          · injection h with h
            injection h with h
            subst h
            exact ⟨rfl, fun _ _ _ => rfl⟩
          · injection h with h
            injection h with h
            subst h
            exact ⟨rfl, fun _ _ _ => rfl⟩
      next c =>
        split at h
        · exact absurd h (by simp)
        next bc hbc =>
          injection h with h
          injection h with h
          subst h
          refine ⟨rfl, ?_⟩
          intro es2 b hres
          rw [heq] at hres
          injection hres with hres
          have := congrArg Prod.fst hres
          exact absurd this (by simp)

/-- Witness for C10 at the example tree. -/
theorem claim_c10_tags_sections_present_witness :
    ({ id := "concepts/bar", title := "bar", type := "concept",
       category := none, date := none, tags := some [],
       summary := none } : DocumentMeta).tags.isSome = true ∧
    ({ id := "concepts/bar", title := "bar", type := "concept",
       category := none, date := none, tags := some [], summary := none,
       content := "", sections := some [] } : Document).tags.isSome = true :=
  ⟨claim_c10_tags_sections_present.1 exC10 _ (by decide) _ (List.mem_singleton.mpr rfl),
   (claim_c10_tags_sections_present.2.1 exC10 "concepts/bar" _ (by decide)).1⟩

/-! ### Claim C2: frontmatter-over-sidecar precedence -/

/-- Modelled from the claim's wording: the resolved field equals the
frontmatter value when present and non-empty, otherwise the sidecar
value when present, otherwise absent (string fields). -/
def specResolveStr (f m : Option String) : Option String :=
  match f with
  | some v => if v = "" then m else some v
  | none => m

/-- Modelled from the claim's wording applied to the tags field: the
frontmatter array when present and non-empty, otherwise the sidecar
array when present, otherwise absent. -/
def specResolveTags (f m : Option (List String)) : Option (List String) :=
  match f with
  | some v => if v = [] then m else some v
  | none => m

/-- Amended rule for the title: frontmatter when present and non-empty,
otherwise sidecar when present and non-empty, otherwise the fallback
name (the title is never absent). -/
def amendedTitleRule (f m : Option String) (fallback : String) : String :=
  match f with
  | some v =>
    if v = "" then
      match m with
      | some w => if w = "" then fallback else w
      | none => fallback
    else v
  | none =>
    match m with
    | some w => if w = "" then fallback else w
    | none => fallback

/-- Amended rule for the tags: the frontmatter array whenever present
(JavaScript arrays are truthy even when empty), otherwise the sidecar
array when present, otherwise the empty array (never absent). -/
def amendedTagsRule (f m : Option (List String)) : List String :=
  match f with
  | some v => v
  | none =>
    match m with
    | some w => w
    | none => []

theorem jsOrS_eq_specResolveStr (f m : Option String) : jsOrS f m = specResolveStr f m := by
  rcases f with _ | v
  · rfl
  · by_cases hv : v = ""
    · simp [jsOrS, specResolveStr, truthyS, hv]
    · simp [jsOrS, specResolveStr, truthyS, hv]

theorem title_eq_amendedTitleRule (f m : Option String) (fb : String) :
    jsOrD f (jsOrD m fb) = amendedTitleRule f m fb := by
  rcases f with _ | v <;> rcases m with _ | w
  · rfl
  · by_cases hw : w = "" <;> simp [jsOrD, amendedTitleRule, truthyS, hw]
  · by_cases hv : v = "" <;> simp [jsOrD, amendedTitleRule, truthyS, hv]
  · by_cases hv : v = "" <;> by_cases hw : w = "" <;>
      simp [jsOrD, amendedTitleRule, truthyS, hv, hw]

theorem tags_eq_amendedTagsRule (f m : Option (List String)) :
    f.getD (m.getD []) = amendedTagsRule f m := by
  rcases f with _ | v <;> rcases m with _ | w <;> rfl

/-- Tree refuting C2 as stated: frontmatter supplies an empty tags
array, the sidecar supplies a non-empty one. -/
def exC2bad : Fs :=
  [("concepts", .dir [("foo", .dir
     [("body.md", .file { matter := ({ tags := some [] }, ""), json := none }),
      ("meta.json", .file { matter := ({}, ""), json := some { tags := some ["x"] } })])])]

/-- C2 counterexample: with frontmatter tags `[]` (present but empty)
and sidecar tags `["x"]`, the claim's precedence rule predicts `["x"]`,
but the code keeps the frontmatter's empty array (JavaScript `||` treats
any array as truthy). -/
theorem claim_c2_counterexample :
    getAllDocuments exC2bad = .ok
      [{ id := "concepts/foo", title := "foo", type := "concept",
         category := none, date := none, tags := some [], summary := none }] ∧
    some ([] : List String) ≠ specResolveTags (some []) (some ["x"]) := by
  constructor
  · decide
  · decide

/-- Example tree from the claim: frontmatter `{title: "A"}` with sidecar
`{title: "B", date: "2024-01-01"}`. -/
def exC2 : Fs :=
  [("concepts", .dir [("foo", .dir
     [("body.md", .file { matter := ({ title := some "A" }, "z"), json := none }),
      ("meta.json", .file
        { matter := ({}, ""), json := some { title := some "B", date := some "2024-01-01" } })])])]

/-- C2 as amended: for documents with both a sidecar and frontmatter
(document folders and subdocument folders), date and summary follow the
claimed precedence exactly; the title follows it with non-emptiness also
required of the sidecar value and with the name fallback instead of
absence; the tags take the frontmatter array whenever present (even
empty), else the sidecar array, else the empty array. The claim's own
example resolves to title "A" and date "2024-01-01". -/
theorem claim_c2_amended :
    (∀ (t n : String) (fm meta : Meta),
       (docFolderMeta t n fm meta).date = specResolveStr fm.date meta.date ∧
       (docFolderMeta t n fm meta).summary = specResolveStr fm.summary meta.summary ∧
       (docFolderMeta t n fm meta).title = amendedTitleRule fm.title meta.title (dashToSpace n) ∧
       (docFolderMeta t n fm meta).tags = some (amendedTagsRule fm.tags meta.tags)) ∧
    (∀ (t cat n : String) (fm meta : Meta),
       (subdirMeta t cat n fm meta).date = specResolveStr fm.date meta.date ∧
       (subdirMeta t cat n fm meta).summary = specResolveStr fm.summary meta.summary ∧
       (subdirMeta t cat n fm meta).title = amendedTitleRule fm.title meta.title (dashToSpace n) ∧
       (subdirMeta t cat n fm meta).tags = some (amendedTagsRule fm.tags meta.tags)) ∧
    getAllDocuments exC2 = .ok
      [{ id := "concepts/foo", title := "A", type := "concept",
         category := none, date := some "2024-01-01", tags := some [], summary := none }] := by
  refine ⟨?_, ?_, by decide⟩
  · intro t n fm meta
    exact ⟨jsOrS_eq_specResolveStr _ _, jsOrS_eq_specResolveStr _ _,
      title_eq_amendedTitleRule _ _ _, congrArg some (tags_eq_amendedTagsRule _ _)⟩
  · intro t cat n fm meta
    exact ⟨jsOrS_eq_specResolveStr _ _, jsOrS_eq_specResolveStr _ _,
      title_eq_amendedTitleRule _ _ _, congrArg some (tags_eq_amendedTagsRule _ _)⟩

/-! ### Claim C4: title fallback across shapes -/

/-- Modelled from the claim's wording for C4: the title equals the
frontmatter title when present, otherwise the sidecar title when
present, otherwise the identifier's last path segment with separators
replaced by spaces. -/
def c4TitleRule (f m : Option String) (lastSeg : String) : String :=
  match f with
  | some v => v
  | none =>
    match m with
    | some w => w
    | none => dashToSpace lastSeg

theorem title_eq_amendedTitleRule_noSidecar (f : Option String) (fb : String) :
    jsOrD f fb = amendedTitleRule f none fb := by
  rcases f with _ | v
  · rfl
  · by_cases hv : v = "" <;> simp [jsOrD, amendedTitleRule, truthyS, hv]

/-- Tree refuting C4 as stated: a flat journal file with a dash in its
name and no frontmatter title. -/
def exC4bad : Fs :=
  [("journals", .dir [("my-note.md", .file { matter := ({}, ""), json := none })])]

/-- C4 counterexample: for the flat file `journals/my-note.md` the
indexer's title is the bare segment `my-note`, while the claimed rule
yields `my note` (separators replaced by spaces). -/
theorem claim_c4_counterexample :
    getAllDocuments exC4bad = .ok
      [{ id := "journals/my-note", title := "my-note", type := "journal",
         category := none, date := some "my-note", tags := some [], summary := none }] ∧
    "my-note" ≠ c4TitleRule none none "my-note" := by
  constructor
  · decide
  · decide

/-- C4 as amended: the title is the frontmatter title when present and
non-empty, otherwise the sidecar title when present and non-empty (only
document folders and subdocument folders have a sidecar; file shapes
resolve it as absent), otherwise the last path segment with separators
replaced by spaces — except for flat files, where the indexer uses the
bare last segment without separator replacement. The loader's two
branches follow the separator-replacing rule. -/
theorem claim_c4_amended :
    (∀ (t n : String) (fm meta : Meta),
       (docFolderMeta t n fm meta).title = amendedTitleRule fm.title meta.title (dashToSpace n)) ∧
    (∀ (t cat n : String) (fm meta : Meta),
       (subdirMeta t cat n fm meta).title = amendedTitleRule fm.title meta.title (dashToSpace n)) ∧
    (∀ (t cat n : String) (fm : Meta),
       (subFileMeta t cat n fm).title = amendedTitleRule fm.title none (dashToSpace n)) ∧
    (∀ (t n : String) (fm : Meta),
       (flatFileMeta t n fm).title = amendedTitleRule fm.title none n) ∧
    (∀ (id : String) (bc : Meta × String) (meta : Meta) (secs : List String),
       (dirDoc id bc meta secs).title =
         amendedTitleRule bc.1.title meta.title (dashToSpace ((splitSlash id).getLastD ""))) ∧
    (∀ (id : String) (bc : Meta × String),
       (fileDoc id bc).title =
         amendedTitleRule bc.1.title none (dashToSpace ((splitSlash id).getLastD ""))) :=
  ⟨fun _ n fm meta => title_eq_amendedTitleRule fm.title meta.title (dashToSpace n),
   fun _ _ n fm meta => title_eq_amendedTitleRule fm.title meta.title (dashToSpace n),
   fun _ _ n fm => title_eq_amendedTitleRule_noSidecar fm.title (dashToSpace n),
   fun _ n fm => title_eq_amendedTitleRule_noSidecar fm.title n,
   fun _ bc meta _ => title_eq_amendedTitleRule bc.1.title meta.title _,
   fun _ bc => title_eq_amendedTitleRule_noSidecar bc.1.title _⟩

/-! ### Claim C6: document folders vs category folders -/

/-- Example tree: `projects/foo/body.md` (a document folder). -/
def exC6a : Fs :=
  [("projects", .dir [("foo", .dir [("body.md", .file { matter := ({}, ""), json := none })])])]

/-- Example tree: `projects/foo/bar/body.md` (a category folder with a
subdocument folder). -/
def exC6b : Fs :=
  [("projects", .dir [("foo", .dir
     [("bar", .dir [("body.md", .file { matter := ({}, ""), json := none })])])])]

/-- Example tree: `projects/foo/bar.md` (a category folder with a
markdown-file child). -/
def exC6c : Fs :=
  [("projects", .dir [("foo", .dir
     [("bar.md", .file { matter := ({}, ""), json := none })])])]

/-- C6: a directory under a type folder with a primary body file yields
exactly one record, with category the folder's own name exactly when the
type is projects; a directory without one is a category folder, each of
whose children is classified in turn (second conjunct), a child
directory or child markdown file each yielding exactly one record with
the category folder's name as category and any other child yielding
none (third conjunct). `projects/foo/body.md` yields id `projects/foo`
with category `foo`; `projects/foo/bar/body.md` yields id
`projects/foo/bar` with category `foo`; `projects/foo/bar.md` yields id
`projects/foo/bar` with category `foo`. -/
theorem claim_c6_folder_classification :
    (∀ (t n : String) (es : List (String × Entry)) (l : List DocumentMeta),
       procTypeEntry t (n, .dir es) = .ok l → hasBodyB es = true →
       ∃ bc, getBodyContent (.dir es) (endsMd n) = .ok bc ∧
         l = [docFolderMeta t n bc.1 (getMetaFromFile es)] ∧
         (docFolderMeta t n bc.1 (getMetaFromFile es)).category =
           (if t = "projects" then some n else none)) ∧
    (∀ (t n : String) (es : List (String × Entry)),
       hasBodyB es = false →
       procTypeEntry t (n, .dir es) = exMapJoin (procCatChild t n) es) ∧
    (∀ (t n : String) (q : String × Entry) (lq : List DocumentMeta),
       procCatChild t n q = .ok lq →
       (∀ es2, q.2 = .dir es2 → ∃ d, lq = [d] ∧ d.category = some n) ∧
       (∀ c, q.2 = .file c → endsMd q.1 = true → ∃ d, lq = [d] ∧ d.category = some n) ∧
       (∀ c, q.2 = .file c → endsMd q.1 = false → lq = [])) ∧
    getAllDocuments exC6a = .ok
      [{ id := "projects/foo", title := "foo", type := "project",
         category := some "foo", date := none, tags := some [], summary := none }] ∧
    getAllDocuments exC6b = .ok
      [{ id := "projects/foo/bar", title := "bar", type := "project",
         category := some "foo", date := none, tags := some [], summary := none }] ∧
    getAllDocuments exC6c = .ok
      [{ id := "projects/foo/bar", title := "bar", type := "project",
         category := some "foo", date := none, tags := some [], summary := none }] := by
  refine ⟨?_, ?_, ?_, by decide, by decide, by decide⟩
  · intro t n es l h hbody
    unfold procTypeEntry at h
    dsimp only at h
    rw [if_pos hbody] at h
    split at h
    · exact absurd h (by simp)
    next bc hbc =>
      injection h with h
      subst h
      refine ⟨bc, hbc, rfl, ?_⟩
      show (if t == "projects" then some n else none) = _
      by_cases ht : t = "projects"
      · simp [ht]
      · simp [ht]
  · intro t n es hbody
    unfold procTypeEntry
    dsimp only
    rw [if_neg (by simp [hbody])]
  · intro t n q lq h
    unfold procCatChild at h
    split at h
    next es2 hq2 =>
      split at h
      · exact absurd h (by simp)
      next bc hbc =>
        injection h with h
        refine ⟨?_, ?_, ?_⟩
        · intro es2x hx
          exact ⟨subdirMeta t n q.1 bc.1 (getMetaFromFile es2), h.symm, rfl⟩
        · intro c hc _
          rw [hq2] at hc
          exact Entry.noConfusion hc
        · intro c hc _
          rw [hq2] at hc
          exact Entry.noConfusion hc
    next c0 hq2 =>
      split at h
      next hmd =>
        split at h
        · exact absurd h (by simp)
        next bc hbc =>
          injection h with h
          refine ⟨?_, ?_, ?_⟩
          · intro es2x hx
            rw [hq2] at hx
            exact Entry.noConfusion hx
          · intro c hc hmdx
            exact ⟨subFileMeta t n (stripMd q.1) bc.1, h.symm, rfl⟩
          · intro c hc hmdx
            rw [hmdx] at hmd
            exact Bool.noConfusion hmd
      next hmd =>
        injection h with h
        refine ⟨?_, ?_, ?_⟩
        · intro es2x hx
          rw [hq2] at hx
          exact Entry.noConfusion hx
        · intro c hc hmdx
          exact absurd hmdx (by simp [Bool.not_eq_true _ ▸ eq_false_of_ne_true hmd])
        · intro c hc hmdx
          exact h.symm

/-- Witness for C6's universally quantified parts at the example trees:
the document-folder part at `projects/foo/body.md` and the child
classification at the markdown child `bar.md`. -/
theorem claim_c6_folder_classification_witness :
    (∃ bc, getBodyContent
        (.dir [("body.md", .file { matter := ({}, ""), json := none })]) (endsMd "foo") = .ok bc ∧
      [docFolderMeta "projects" "foo" bc.1
         (getMetaFromFile [("body.md", .file { matter := ({}, ""), json := none })])] =
        [docFolderMeta "projects" "foo" bc.1
           (getMetaFromFile [("body.md", .file { matter := ({}, ""), json := none })])] ∧
      (docFolderMeta "projects" "foo" bc.1
         (getMetaFromFile [("body.md", .file { matter := ({}, ""), json := none })])).category =
        (if "projects" = "projects" then some "foo" else none)) ∧
    (∃ d, [subFileMeta "projects" "foo" (stripMd "bar.md")
             ({ matter := ({}, ""), json := none } : FileContent).matter.1] = [d] ∧
       d.category = some "foo") := by
  constructor
  · obtain ⟨bc, h1, h2, h3⟩ := claim_c6_folder_classification.1 "projects" "foo"
      [("body.md", .file { matter := ({}, ""), json := none })]
      [docFolderMeta "projects" "foo" ({} : Meta)
         (getMetaFromFile [("body.md", .file { matter := ({}, ""), json := none })])]
      (by decide) (by decide)
    exact ⟨bc, h1, rfl, h3⟩
  · exact (claim_c6_folder_classification.2.2.1 "projects" "foo"
      ("bar.md", .file { matter := ({}, ""), json := none }) _ (by decide)).2.1
      { matter := ({}, ""), json := none } rfl (by decide)


/-! ### Claim C9: loader not-found behavior -/

/-- Tree refuting the second half of C9: `projects/foo` resolves to an
existing directory, but its `sections` entry is a regular file, so
`readdirSync` throws and the loader neither returns null nor a Document. -/
def exC9bad : Fs :=
  [("projects", .dir [("foo", .dir
     [("body.md", .file { matter := ({}, ""), json := none }),
      ("sections", .file { matter := ({}, ""), json := none })])])]

/-- C9 counterexample: an identifier that does resolve can still make
the loader throw (here: a regular file named `sections`), so "all other
identifiers return a Document" fails. -/
theorem claim_c9_counterexample :
    resolveId exC9bad "projects/foo" =
      some (.dir
        [("body.md", .file { matter := ({}, ""), json := none }),
         ("sections", .file { matter := ({}, ""), json := none })], false) ∧
    getDocument exC9bad "projects/foo" = .error () := by
  constructor
  · rfl
  · rfl

/-- C9 as amended: an identifier resolving to neither a file nor a
directory (directly or with `.md` appended) yields the not-found result
and never an exception; an identifier resolving to a regular file always
yields a Document; an identifier resolving to a directory yields a
Document provided any `body.md` entry there is a regular file, any
`index.md` entry consulted when `body.md` is absent is a regular file,
the resolved path does not end in `.md` when both are absent, and any
`sections` entry is a directory. -/
theorem claim_c9_amended :
    (∀ (fs : Fs) (id : String), resolveId fs id = none → getDocument fs id = .ok none) ∧
    (∀ (fs : Fs) (id : String) (c : FileContent) (b : Bool),
       resolveId fs id = some (.file c, b) → ∃ doc, getDocument fs id = .ok (some doc)) ∧
    (∀ (fs : Fs) (id : String) (es : List (String × Entry)) (b : Bool),
       resolveId fs id = some (.dir es, b) →
       (∀ e2, findEntry es "body.md" = some e2 → e2.isDir = false) →
       (findEntry es "body.md" = none →
          ∀ e2, findEntry es "index.md" = some e2 → e2.isDir = false) →
       (findEntry es "body.md" = none → findEntry es "index.md" = none →
          (b || endsMd id) = false) →
       (∀ e2, findEntry es "sections" = some e2 → e2.isDir = true) →
       ∃ doc, getDocument fs id = .ok (some doc)) := by
  refine ⟨?_, ?_, ?_⟩
  · intro fs id h
    unfold getDocument
    rw [h]
  · intro fs id c b h
    unfold getDocument
    rw [h]
    dsimp only
    rcases hx : (b || endsMd id) with _ | _
    · exact ⟨fileDoc id ({}, ""), rfl⟩
    · exact ⟨fileDoc id c.matter, rfl⟩
  · intro fs id es b h hbody hindex hflag hsec
    have hgb : ∃ bc, getBodyContent (.dir es) (b || endsMd id) = .ok bc := by
      rcases hbm : findEntry es "body.md" with _ | e2
      · rcases him : findEntry es "index.md" with _ | e3
        · refine ⟨({}, ""), ?_⟩
          unfold getBodyContent
          dsimp only
          rw [hbm, him, hflag hbm him]
          rfl
        · rcases e3 with c3 | es3
          · exact ⟨c3.matter, by unfold getBodyContent; dsimp only; rw [hbm, him]⟩
          · exact absurd (hindex hbm _ him) (by simp [Entry.isDir])
      · rcases e2 with c2 | es2
        · exact ⟨c2.matter, by unfold getBodyContent; dsimp only; rw [hbm]⟩
        · exact absurd (hbody _ hbm) (by simp [Entry.isDir])
    obtain ⟨bc, hgb⟩ := hgb
    unfold getDocument
    rw [h]
    dsimp only
    rw [hgb]
    rcases hsm : findEntry es "sections" with _ | e4
    · exact ⟨dirDoc id bc (getMetaFromFile es) [], rfl⟩
    · rcases e4 with c4 | ss
      · exact absurd (hsec _ hsm) (by simp [Entry.isDir])
      · exact ⟨dirDoc id bc (getMetaFromFile es) (sectionNames ss), rfl⟩

/-- Witness for C9's not-found part on the empty root. -/
theorem claim_c9_amended_witness : getDocument ([] : Fs) "missing" = .ok none :=
  claim_c9_amended.1 [] "missing" rfl

/-! ### Claim C5: identifier uniqueness -/

/-- Children of a directory entry (empty for a regular file). -/
def dirListing : Entry → List (String × Entry)
  | .dir es => es
  | .file _ => []

/-- The identifier segment a category-folder child contributes: a child
directory contributes its name, a child markdown file its stripped name,
anything else nothing. -/
def entryKey (p : String × Entry) : Option String :=
  match p.2 with
  | .dir _ => some p.1
  | .file _ => if endsMd p.1 then some (stripMd p.1) else none

/-- The identifiers one type-folder entry contributes. -/
def idsOfEntry (t : String) (p : String × Entry) : List String :=
  match p.2 with
  | .dir es =>
    if hasBodyB es then [t ++ "/" ++ p.1]
    else (es.filterMap entryKey).map (fun k => t ++ "/" ++ p.1 ++ "/" ++ k)
  | .file _ => if endsMd p.1 then [t ++ "/" ++ stripMd p.1] else []

/-- The identifiers one type folder contributes. -/
def typeIdsOf (fs : Fs) (t : String) : List String :=
  match findEntry fs t with
  | some (.dir es) => es.flatMap (idsOfEntry t)
  | _ => []

theorem exMapJoin_map_eq {α β γ : Type _} {f : α → Except Unit (List β)} {g : β → γ}
    {h : α → List γ} :
    ∀ {xs : List α} {l : List β}, exMapJoin f xs = .ok l →
      (∀ x ∈ xs, ∀ lx, f x = .ok lx → lx.map g = h x) →
      l.map g = xs.flatMap h := by
  intro xs
  induction xs with
  | nil =>
    intro l hl _
    injection hl with hl
    subst hl
    simp
  | cons x xs ih =>
    intro l hl hx
    simp only [exMapJoin] at hl
    rcases hfx : f x with e | lx <;> rw [hfx] at hl
    · exact absurd hl (by simp)
    · rcases hrest : exMapJoin f xs with e | ls <;> rw [hrest] at hl
      · exact absurd hl (by simp)
      · injection hl with hl
        subst hl
        rw [List.map_append, List.flatMap_cons,
          hx x (List.mem_cons_self x xs) lx hfx,
          ih hrest (fun y hy => hx y (List.mem_cons_of_mem _ hy))]

theorem procCatChild_ids {t cat : String} {q : String × Entry} {lq : List DocumentMeta}
    (h : procCatChild t cat q = .ok lq) :
    lq.map DocumentMeta.id =
      (entryKey q).toList.map (fun k => t ++ "/" ++ cat ++ "/" ++ k) := by
  unfold procCatChild at h
  split at h
  next es2 hq2 =>
    split at h
    · exact absurd h (by simp)
    next bc hbc =>
      injection h with h
      subst h
      simp [entryKey, hq2, subdirMeta]
  next c hq2 =>
    split at h
    next hmd =>
      split at h
      · exact absurd h (by simp)
      next bc hbc =>
        injection h with h
        subst h
        simp [entryKey, hq2, hmd, subFileMeta]
    next hmd =>
      injection h with h
      subst h
      simp [entryKey, hq2, Bool.not_eq_true _ ▸ eq_false_of_ne_true hmd]

theorem toList_map_flatMap_eq_filterMap_map {α : Type _}
    (f : String → α) (es : List (String × Entry)) :
    (es.flatMap (fun q => (entryKey q).toList.map f)) = (es.filterMap entryKey).map f := by
  induction es with
  | nil => rfl
  | cons q es ih =>
    rw [List.flatMap_cons, List.filterMap_cons]
    rcases hq : entryKey q with _ | k
    · simpa using ih
    · simp only [Option.toList_some, List.map_cons, List.map_nil]
      rw [List.cons_append, List.nil_append, ih]

theorem procTypeEntry_ids {t : String} {p : String × Entry} {lp : List DocumentMeta}
    (h : procTypeEntry t p = .ok lp) :
    lp.map DocumentMeta.id = idsOfEntry t p := by
  unfold procTypeEntry at h
  split at h
  next es hdir =>
    by_cases hbody : hasBodyB es = true
    · rw [if_pos hbody] at h
      split at h
      · exact absurd h (by simp)
      next bc hbc =>
        injection h with h
        subst h
        simp [idsOfEntry, hdir, hbody, docFolderMeta]
    · rw [if_neg hbody] at h
      have := exMapJoin_map_eq h (fun q _ lq hq => procCatChild_ids hq)
      rw [this, toList_map_flatMap_eq_filterMap_map]
      simp [idsOfEntry, hdir, Bool.not_eq_true _ ▸ eq_false_of_ne_true hbody]
  next c hfile =>
    split at h
    next hmd =>
      split at h
      · exact absurd h (by simp)
      next bc hbc =>
        injection h with h
        subst h
        simp [idsOfEntry, hfile, hmd, flatFileMeta]
    next hmd =>
      injection h with h
      subst h
      simp [idsOfEntry, hfile, Bool.not_eq_true _ ▸ eq_false_of_ne_true hmd]

theorem procType_ids {fs : Fs} {t : String} {lt : List DocumentMeta}
    (h : procType fs t = .ok lt) :
    lt.map DocumentMeta.id = typeIdsOf fs t := by
  unfold procType at h
  split at h
  next heq =>
    injection h with h
    subst h
    simp [typeIdsOf, heq]
  · exact absurd h (by simp)
  next es heq =>
    rw [exMapJoin_map_eq h (fun p _ lp hp => procTypeEntry_ids hp)]
    simp [typeIdsOf, heq]

theorem collectAll_ids {fs : Fs} {l : List DocumentMeta}
    (h : collectAll fs = .ok l) :
    l.map DocumentMeta.id =
      typeIdsOf fs "projects" ++ (typeIdsOf fs "journals" ++ typeIdsOf fs "concepts") := by
  have := exMapJoin_map_eq h (fun t _ lt ht => procType_ids ht)
  rw [this]
  simp

/-- Well-formedness of one directory listing: names are distinct and
slash-free, and a markdown file's name has `.md` only as its final
extension, with no sibling entry bearing its stripped name. -/
abbrev listingOk (es : List (String × Entry)) : Prop :=
  (es.map Prod.fst).Nodup ∧
  (∀ p ∈ es, noSlash p.1 = true) ∧
  (∀ p ∈ es, p.2.isDir = false → endsMd p.1 = true →
     stripMd p.1 ++ ".md" = p.1 ∧ ∀ q ∈ es, q.1 ≠ stripMd p.1)

theorem listingOk_tail {p : String × Entry} {es : List (String × Entry)}
    (h : listingOk (p :: es)) : listingOk es := by
  obtain ⟨h1, h2, h3⟩ := h
  rw [List.map_cons, List.nodup_cons] at h1
  refine ⟨h1.2, fun q hq => h2 q (List.mem_cons_of_mem _ hq), ?_⟩
  intro q hq hf hmd
  obtain ⟨ha, hb⟩ := h3 q (List.mem_cons_of_mem _ hq) hf hmd
  exact ⟨ha, fun r hr => hb r (List.mem_cons_of_mem _ hr)⟩

theorem entryKey_some_cases {q : String × Entry} {k : String} (h : entryKey q = some k) :
    (q.2.isDir = true ∧ k = q.1) ∨
    (q.2.isDir = false ∧ endsMd q.1 = true ∧ k = stripMd q.1) := by
  unfold entryKey at h
  split at h
  next es heq =>
    injection h with h
    exact Or.inl ⟨by rw [heq]; rfl, h.symm⟩
  next c heq =>
    split at h
    next hmd =>
      injection h with h
      exact Or.inr ⟨by rw [heq]; rfl, hmd, h.symm⟩
    next hmd => exact absurd h (by simp)

theorem entryKey_noSlash {es : List (String × Entry)} (hok : listingOk es)
    {q : String × Entry} (hq : q ∈ es) {k : String} (hk : entryKey q = some k) :
    noSlash k = true := by
  rcases entryKey_some_cases hk with ⟨_, he⟩ | ⟨_, _, he⟩
  · rw [he]
    exact hok.2.1 q hq
  · rw [he]
    exact noSlash_stripMd (hok.2.1 q hq)

theorem entryKey_inj {es : List (String × Entry)} (hok : listingOk es)
    {p q : String × Entry} (hp : p ∈ es) (hq : q ∈ es) {k : String}
    (hkp : entryKey p = some k) (hkq : entryKey q = some k) : p.1 = q.1 := by
  rcases entryKey_some_cases hkp with ⟨_, hpe⟩ | ⟨hpf, hpm, hpe⟩ <;>
    rcases entryKey_some_cases hkq with ⟨_, hqe⟩ | ⟨hqf, hqm, hqe⟩
  · rw [← hpe, ← hqe]
  · exact absurd (hpe ▸ hqe : p.1 = stripMd q.1)
      ((hok.2.2 q hq hqf hqm).2 p hp)
  · exact absurd (hqe ▸ hpe : q.1 = stripMd p.1).symm
      (fun e => (hok.2.2 p hp hpf hpm).2 q hq e.symm)
  · have e1 := (hok.2.2 p hp hpf hpm).1
    have e2 := (hok.2.2 q hq hqf hqm).1
    rw [← e1, ← e2, ← hpe, ← hqe]

theorem keys_nodup : ∀ {es : List (String × Entry)}, listingOk es →
    (es.filterMap entryKey).Nodup
  | [], _ => by simp
  | p :: rest, hok => by
    rw [List.filterMap_cons]
    rcases hk : entryKey p with _ | k
    · exact keys_nodup (listingOk_tail hok)
    · refine List.nodup_cons.mpr ⟨?_, keys_nodup (listingOk_tail hok)⟩
      intro hmem
      obtain ⟨q, hq, hkq⟩ := List.mem_filterMap.mp hmem
      have hpq : p.1 = q.1 :=
        entryKey_inj hok (List.mem_cons_self p rest) (List.mem_cons_of_mem _ hq) hk hkq
      have hnodup := hok.1
      rw [List.map_cons, List.nodup_cons] at hnodup
      exact hnodup.1 (by rw [hpq]; exact List.mem_map_of_mem Prod.fst hq)

theorem segs2_inj {t1 n1 t2 n2 : String} (ht1 : noSlash t1 = true) (hn1 : noSlash n1 = true)
    (ht2 : noSlash t2 = true) (hn2 : noSlash n2 = true)
    (h : t1 ++ "/" ++ n1 = t2 ++ "/" ++ n2) : t1 = t2 ∧ n1 = n2 := by
  have hs := congrArg splitSlash h
  rw [splitSlash_pair t1 n1 ht1 hn1, splitSlash_pair t2 n2 ht2 hn2] at hs
  injection hs with h1 h2
  injection h2 with h2
  exact ⟨h1, h2⟩

theorem segs3_inj {t1 a1 b1 t2 a2 b2 : String}
    (ht1 : noSlash t1 = true) (ha1 : noSlash a1 = true) (hb1 : noSlash b1 = true)
    (ht2 : noSlash t2 = true) (ha2 : noSlash a2 = true) (hb2 : noSlash b2 = true)
    (h : t1 ++ "/" ++ a1 ++ "/" ++ b1 = t2 ++ "/" ++ a2 ++ "/" ++ b2) :
    t1 = t2 ∧ a1 = a2 ∧ b1 = b2 := by
  have hs := congrArg splitSlash h
  rw [splitSlash_triple t1 a1 b1 ht1 ha1 hb1, splitSlash_triple t2 a2 b2 ht2 ha2 hb2] at hs
  injection hs with h1 h2
  injection h2 with h2 h3
  injection h3 with h3
  exact ⟨h1, h2, h3⟩

theorem segs2_ne_segs3 {t1 n1 t2 a2 b2 : String}
    (ht1 : noSlash t1 = true) (hn1 : noSlash n1 = true)
    (ht2 : noSlash t2 = true) (ha2 : noSlash a2 = true) (hb2 : noSlash b2 = true) :
    t1 ++ "/" ++ n1 ≠ t2 ++ "/" ++ a2 ++ "/" ++ b2 := by
  intro h
  have hs := congrArg splitSlash h
  rw [splitSlash_pair t1 n1 ht1 hn1, splitSlash_triple t2 a2 b2 ht2 ha2 hb2] at hs
  exact absurd (congrArg List.length hs) (by simp)

theorem str_assoc3 (a b c : String) : a ++ "/" ++ b ++ "/" ++ c = a ++ "/" ++ (b ++ "/" ++ c) := by
  apply String.ext
  simp [String.data_append, List.append_assoc]

theorem idsOfEntry_mem {t : String} {p : String × Entry} {a : String}
    (ha : a ∈ idsOfEntry t p) :
    (p.2.isDir = true ∧ a = t ++ "/" ++ p.1) ∨
    (p.2.isDir = false ∧ endsMd p.1 = true ∧ a = t ++ "/" ++ stripMd p.1) ∨
    (p.2.isDir = true ∧ ∃ k, k ∈ (dirListing p.2).filterMap entryKey ∧
       a = t ++ "/" ++ p.1 ++ "/" ++ k) := by
  unfold idsOfEntry at ha
  split at ha
  next es heq =>
    by_cases hb : hasBodyB es = true
    · rw [if_pos hb] at ha
      exact Or.inl ⟨by rw [heq]; rfl, List.mem_singleton.mp ha⟩
    · rw [if_neg hb] at ha
      obtain ⟨k, hk, hak⟩ := List.mem_map.mp ha
      refine Or.inr (Or.inr ⟨by rw [heq]; rfl, k, ?_, hak.symm⟩)
      rw [heq]
      exact hk
  next c heq =>
    split at ha
    next hmd =>
      exact Or.inr (Or.inl ⟨by rw [heq]; rfl, hmd, List.mem_singleton.mp ha⟩)
    next hmd => simp at ha

theorem idsOfEntry_mem_prefix {t : String} {p : String × Entry} {a : String}
    (ha : a ∈ idsOfEntry t p) : ∃ s, a = t ++ "/" ++ s := by
  rcases idsOfEntry_mem ha with ⟨_, he⟩ | ⟨_, _, he⟩ | ⟨_, k, _, he⟩
  · exact ⟨p.1, he⟩
  · exact ⟨stripMd p.1, he⟩
  · exact ⟨p.1 ++ "/" ++ k, by rw [he, str_assoc3]⟩

theorem idsOfEntry_nodup {t : String} {p : String × Entry}
    (hts : noSlash t = true) (hp1 : noSlash p.1 = true)
    (hchild : listingOk (dirListing p.2)) :
    (idsOfEntry t p).Nodup := by
  unfold idsOfEntry
  split
  next es heq =>
    by_cases hb : hasBodyB es = true
    · rw [if_pos hb]
      simp
    · rw [if_neg hb]
      have hes : listingOk es := by
        have : dirListing p.2 = es := by rw [heq]; rfl
        rw [← this]
        exact hchild
      refine List.Nodup.map_on ?_ (keys_nodup hes)
      intro k1 hk1 k2 hk2 he
      obtain ⟨q1, hq1, hkq1⟩ := List.mem_filterMap.mp hk1
      obtain ⟨q2, hq2, hkq2⟩ := List.mem_filterMap.mp hk2
      exact (segs3_inj hts hp1 (entryKey_noSlash hes hq1 hkq1)
        hts hp1 (entryKey_noSlash hes hq2 hkq2) he).2.2
  next c heq =>
    split
    · simp
    · simp

theorem idsOfEntry_disjoint {t : String} {es : List (String × Entry)}
    (hok : listingOk es) (hts : noSlash t = true)
    {p q : String × Entry} (hp : p ∈ es) (hq : q ∈ es) (hne : p.1 ≠ q.1)
    (hokp : listingOk (dirListing p.2)) (hokq : listingOk (dirListing q.2)) :
    List.Disjoint (idsOfEntry t p) (idsOfEntry t q) := by
  intro a hap haq
  have hp1 : noSlash p.1 = true := hok.2.1 p hp
  have hq1 : noSlash q.1 = true := hok.2.1 q hq
  rcases idsOfEntry_mem hap with ⟨hpd, he1⟩ | ⟨hpf, hpm, he1⟩ | ⟨hpd, k1, hk1, he1⟩ <;>
    rcases idsOfEntry_mem haq with ⟨hqd, he2⟩ | ⟨hqf, hqm, he2⟩ | ⟨hqd, k2, hk2, he2⟩
  · exact hne (segs2_inj hts hp1 hts hq1 (he1.symm.trans he2)).2
  · exact (hok.2.2 q hq hqf hqm).2 p hp
      (segs2_inj hts hp1 hts (noSlash_stripMd hq1) (he1.symm.trans he2)).2
  · obtain ⟨r, hr, hkr⟩ := List.mem_filterMap.mp hk2
    exact segs2_ne_segs3 hts hp1 hts hq1 (entryKey_noSlash hokq hr hkr) (he1.symm.trans he2)
  · exact (hok.2.2 p hp hpf hpm).2 q hq
      (segs2_inj hts hq1 hts (noSlash_stripMd hp1) (he2.symm.trans he1)).2
  · have h1 := (hok.2.2 p hp hpf hpm).1
    have h2 := (hok.2.2 q hq hqf hqm).1
    have := (segs2_inj hts (noSlash_stripMd hp1) hts (noSlash_stripMd hq1)
      (he1.symm.trans he2)).2
    exact hne (by rw [← h1, ← h2, this])
  · obtain ⟨r, hr, hkr⟩ := List.mem_filterMap.mp hk2
    exact segs2_ne_segs3 hts (noSlash_stripMd hp1) hts hq1
      (entryKey_noSlash hokq hr hkr) (he1.symm.trans he2)
  · obtain ⟨r, hr, hkr⟩ := List.mem_filterMap.mp hk1
    exact segs2_ne_segs3 hts hq1 hts hp1 (entryKey_noSlash hokp hr hkr) (he2.symm.trans he1)
  · obtain ⟨r, hr, hkr⟩ := List.mem_filterMap.mp hk1
    exact segs2_ne_segs3 hts (noSlash_stripMd hq1) hts hp1
      (entryKey_noSlash hokp hr hkr) (he2.symm.trans he1)
  · obtain ⟨r1, hr1, hkr1⟩ := List.mem_filterMap.mp hk1
    exact hne (segs3_inj hts hp1 (entryKey_noSlash hokp hr1 hkr1) hts hq1
      (by
        obtain ⟨r2, hr2, hkr2⟩ := List.mem_filterMap.mp hk2
        exact entryKey_noSlash hokq hr2 hkr2)
      (he1.symm.trans he2)).2.1

/-- Well-formedness of a `sections` entry: when present it is a directory. -/
abbrev secOk (es : List (String × Entry)) : Prop :=
  ∀ q ∈ es, q.1 = "sections" → q.2.isDir = true

/-- Well-formedness of a whole tree, to the depth the indexer and loader
inspect: every listing down to category children is a well-formed
listing, and `sections` entries inside document folders are directories. -/
abbrev WF (fs : Fs) : Prop :=
  listingOk fs ∧
  ∀ p ∈ fs, listingOk (dirListing p.2) ∧
    ∀ q ∈ dirListing p.2, listingOk (dirListing q.2) ∧
      secOk (dirListing q.2) ∧
      ∀ r ∈ dirListing q.2, secOk (dirListing r.2)

theorem WF_type {fs : Fs} (hwf : WF fs) (t : String) :
    ∀ es, findEntry fs t = some (.dir es) →
      listingOk es ∧ ∀ p ∈ es, listingOk (dirListing p.2) := by
  intro es heq
  have hmem := findEntry_mem heq
  obtain ⟨h1, h2⟩ := hwf.2 (t, .dir es) hmem
  exact ⟨h1, fun p hp => (h2 p hp).1⟩

/-- The naming conditions alone, to the depth the indexer inspects:
every listing down to category children is a well-formed listing
(distinct slash-free names, `.md` only as final extension, no
stripped-name collisions). -/
abbrev WFnames (fs : Fs) : Prop :=
  listingOk fs ∧
  ∀ p ∈ fs, listingOk (dirListing p.2) ∧
    ∀ q ∈ dirListing p.2, listingOk (dirListing q.2)

theorem WFnames_type {fs : Fs} (hwf : WFnames fs) (t : String) :
    ∀ es, findEntry fs t = some (.dir es) →
      listingOk es ∧ ∀ p ∈ es, listingOk (dirListing p.2) := by
  intro es heq
  have hmem := findEntry_mem heq
  obtain ⟨h1, h2⟩ := hwf.2 (t, .dir es) hmem
  exact ⟨h1, fun p hp => h2 p hp⟩

theorem typeIdsOf_nodup {fs : Fs} {t : String} (hts : noSlash t = true)
    (h : ∀ es, findEntry fs t = some (.dir es) →
       listingOk es ∧ ∀ p ∈ es, listingOk (dirListing p.2)) :
    (typeIdsOf fs t).Nodup := by
  unfold typeIdsOf
  split
  next es heq =>
    obtain ⟨hok, hchild⟩ := h es heq
    rw [List.nodup_flatMap]
    constructor
    · intro p hp
      exact idsOfEntry_nodup hts (hok.2.1 p hp) (hchild p hp)
    · exact (List.pairwise_map.mp hok.1).imp_of_mem
        (fun {p q} hp hq hne =>
          idsOfEntry_disjoint hok hts hp hq hne (hchild p hp) (hchild q hq))
  · simp

theorem typeIdsOf_head {fs : Fs} {t : String} (hts : noSlash t = true)
    {a : String} (ha : a ∈ typeIdsOf fs t) : (splitSlash a).headD "" = t := by
  unfold typeIdsOf at ha
  split at ha
  next es heq =>
    obtain ⟨p, hp, hap⟩ := List.mem_flatMap.mp ha
    obtain ⟨s, rfl⟩ := idsOfEntry_mem_prefix hap
    rw [splitSlash_append t s hts]
    rfl
  · simp at ha

/-- Tree refuting C5 as stated: a document folder `foo` and a flat file
`foo.md` under the same type folder both produce the id `projects/foo`. -/
def exC5bad : Fs :=
  [("projects", .dir
     [("foo", .dir [("body.md", .file { matter := ({}, ""), json := none })]),
      ("foo.md", .file { matter := ({}, ""), json := none })])]

/-- C5 counterexample: with a flat markdown file and a sibling directory
sharing the base name `foo`, the indexer emits two records with the
same identifier, so the identifiers are not pairwise distinct. -/
theorem claim_c5_counterexample :
    (getAllDocuments exC5bad).map (fun l => l.map DocumentMeta.id) =
      .ok ["projects/foo", "projects/foo"] ∧
    ¬ (["projects/foo", "projects/foo"] : List String).Nodup := by
  constructor
  · decide
  · decide

/-- C5 as amended: the identifiers of the indexer's records are pairwise
distinct for every well-formed tree: directory listings with distinct,
slash-free names, `.md` appearing in a markdown filename only as its
final extension, and no entry sharing a name with a sibling markdown
file's stripped base name (exactly the collision of the counterexample). -/
theorem claim_c5_amended (fs : Fs) (l : List DocumentMeta)
    (hwf : WFnames fs) (h : getAllDocuments fs = .ok l) :
    (l.map DocumentMeta.id).Nodup := by
  obtain ⟨l0, hc, rfl⟩ := getAllDocuments_eq h
  rw [List.Perm.nodup_iff ((List.perm_insertionSort docLe l0).map DocumentMeta.id)]
  rw [collectAll_ids hc]
  have hd1 := typeIdsOf_nodup (t := "projects") (by decide) (WFnames_type hwf "projects")
  have hd2 := typeIdsOf_nodup (t := "journals") (by decide) (WFnames_type hwf "journals")
  have hd3 := typeIdsOf_nodup (t := "concepts") (by decide) (WFnames_type hwf "concepts")
  rw [List.nodup_append]
  refine ⟨hd1, ?_, ?_⟩
  · rw [List.nodup_append]
    refine ⟨hd2, hd3, ?_⟩
    intro a ha hb
    have e1 := typeIdsOf_head (t := "journals") (by decide) ha
    have e2 := typeIdsOf_head (t := "concepts") (by decide) hb
    exact absurd (e1.symm.trans e2) (by decide)
  · intro a ha hb
    have e1 := typeIdsOf_head (t := "projects") (by decide) ha
    rcases List.mem_append.mp hb with hb2 | hb3
    · have e2 := typeIdsOf_head (t := "journals") (by decide) hb2
      exact absurd (e1.symm.trans e2) (by decide)
    · have e2 := typeIdsOf_head (t := "concepts") (by decide) hb3
      exact absurd (e1.symm.trans e2) (by decide)

/-- Witness tree for the amended uniqueness statement. -/
def exC5 : Fs :=
  [("projects", .dir [("alpha", .dir [("body.md", .file { matter := ({}, ""), json := none })])]),
   ("journals", .dir [("2020-01-01.md", .file { matter := ({}, ""), json := none })])]

set_option synthInstance.maxSize 5000 in
/-- Witness for C5's amended statement at a well-formed tree. -/
theorem claim_c5_amended_witness :
    (([{ id := "journals/2020-01-01", title := "2020-01-01", type := "journal",
         category := none, date := some "2020-01-01", tags := some [], summary := none },
       { id := "projects/alpha", title := "alpha", type := "project",
         category := some "alpha", date := none, tags := some [], summary := none }] :
       List DocumentMeta).map DocumentMeta.id).Nodup :=
  claim_c5_amended exC5 _ (by decide) (by decide)

/-! ### Claim C1: indexer-to-loader round trip -/

theorem sections_ok {es : List (String × Entry)} (hsec : secOk es) :
    findEntry es "sections" = none ∨
    ∃ ss, findEntry es "sections" = some (.dir ss) := by
  rcases h : findEntry es "sections" with _ | e
  · exact Or.inl rfl
  · have hm := findEntry_mem h
    have hd := hsec _ hm rfl
    rcases e with c | ss
    · exact absurd hd (by simp [Entry.isDir])
    · exact Or.inr ⟨ss, rfl⟩

theorem resolvePath_two {fs : Fs} {t n : String} {es : List (String × Entry)}
    (hft : findEntry fs t = some (.dir es)) :
    resolvePath fs [t, n] = findEntry es n := by
  simp [resolvePath, hft]

theorem resolvePath_three {fs : Fs} {t c n : String} {es es2 : List (String × Entry)}
    (hft : findEntry fs t = some (.dir es))
    (hfc : findEntry es c = some (.dir es2)) :
    resolvePath fs [t, c, n] = findEntry es2 n := by
  simp [resolvePath, hft, hfc]

theorem withMdLast_two (t n : String) : withMdLast [t, n] = [t, n ++ ".md"] := by
  simp [withMdLast]

theorem withMdLast_three (t c n : String) : withMdLast [t, c, n] = [t, c, n ++ ".md"] := by
  simp [withMdLast]

theorem resolveId_two {fs : Fs} {t n : String} {es : List (String × Entry)} {e : Entry}
    (ht : noSlash t = true) (hn : noSlash n = true)
    (hft : findEntry fs t = some (.dir es)) (hfn : findEntry es n = some e) :
    resolveId fs (t ++ "/" ++ n) = some (e, false) := by
  unfold resolveId
  rw [splitSlash_pair t n ht hn, resolvePath_two hft, hfn]

theorem resolveId_two_md {fs : Fs} {t n : String} {es : List (String × Entry)}
    {e : Entry}
    (ht : noSlash t = true) (hsn : noSlash (stripMd n) = true)
    (hft : findEntry fs t = some (.dir es))
    (hmiss : findEntry es (stripMd n) = none)
    (hmd : stripMd n ++ ".md" = n)
    (hfn : findEntry es n = some e) :
    resolveId fs (t ++ "/" ++ stripMd n) = some (e, true) := by
  unfold resolveId
  rw [splitSlash_pair t (stripMd n) ht hsn, resolvePath_two hft, hmiss,
    withMdLast_two, hmd, resolvePath_two hft, hfn]

theorem resolveId_three {fs : Fs} {t c n : String} {es es2 : List (String × Entry)}
    {e : Entry}
    (ht : noSlash t = true) (hc : noSlash c = true) (hn : noSlash n = true)
    (hft : findEntry fs t = some (.dir es))
    (hfc : findEntry es c = some (.dir es2))
    (hfn : findEntry es2 n = some e) :
    resolveId fs (t ++ "/" ++ c ++ "/" ++ n) = some (e, false) := by
  unfold resolveId
  rw [splitSlash_triple t c n ht hc hn, resolvePath_three hft hfc, hfn]

theorem resolveId_three_md {fs : Fs} {t c n : String} {es es2 : List (String × Entry)}
    {e : Entry}
    (ht : noSlash t = true) (hc : noSlash c = true) (hsn : noSlash (stripMd n) = true)
    (hft : findEntry fs t = some (.dir es))
    (hfc : findEntry es c = some (.dir es2))
    (hmiss : findEntry es2 (stripMd n) = none)
    (hmd : stripMd n ++ ".md" = n)
    (hfn : findEntry es2 n = some e) :
    resolveId fs (t ++ "/" ++ c ++ "/" ++ stripMd n) = some (e, true) := by
  unfold resolveId
  rw [splitSlash_triple t c (stripMd n) ht hc hsn, resolvePath_three hft hfc, hmiss,
    withMdLast_three, hmd, resolvePath_three hft hfc, hfn]

theorem getDocument_dir_eq {fs : Fs} {id : String} {es2 : List (String × Entry)}
    {bc : Meta × String}
    (hres : resolveId fs id = some (.dir es2, false))
    (hsec : secOk es2)
    (hgb : getBodyContent (.dir es2) (endsMd id) = .ok bc) :
    ∃ secs, getDocument fs id = .ok (some (dirDoc id bc (getMetaFromFile es2) secs)) := by
  unfold getDocument
  rw [hres]
  dsimp only
  rw [Bool.false_or, hgb]
  rcases sections_ok hsec with hnone | ⟨ss, hss⟩
  · exact ⟨[], by rw [hnone]⟩
  · exact ⟨sectionNames ss, by rw [hss]⟩

theorem getDocument_file_eq {fs : Fs} {id : String} {c : FileContent} {b : Bool}
    (hres : resolveId fs id = some (.file c, b)) (hb : (b || endsMd id) = true) :
    getDocument fs id = .ok (some (fileDoc id c.matter)) := by
  unfold getDocument
  rw [hres]
  dsimp only
  rw [hb]
  rfl

/-- Tree refuting C1 as stated: a project document folder. -/
def exC1bad : Fs :=
  [("projects", .dir [("foo", .dir [("body.md", .file { matter := ({}, "hi"), json := none })])])]

/-- C1 counterexample: for the project document folder `projects/foo`
the indexer's record carries category `foo`, but the loader, whose
category comes only from ids with more than two segments, returns the
Document with category absent. -/
theorem claim_c1_counterexample :
    getAllDocuments exC1bad = .ok
      [{ id := "projects/foo", title := "foo", type := "project",
         category := some "foo", date := none, tags := some [], summary := none }] ∧
    getDocument exC1bad "projects/foo" = .ok (some
      { id := "projects/foo", title := "foo", type := "project",
        category := none, date := none, tags := some [], summary := none,
        content := "hi", sections := some [] }) ∧
    (none : Option String) ≠ some "foo" := by
  refine ⟨by decide, by decide, by decide⟩

/-- C1 as amended: over well-formed trees, every indexer record's id is
re-resolvable by the loader to a Document agreeing on type, tags and
summary, with three systematic exceptions: the loader's category is the
record's category only for ids with more than two segments (so a project
document folder loses its category); the loader's title may be the
record's title with dashes replaced by spaces (flat files); and for a
record without a truthy date the loader may default the date to the
id's last segment (subdocument files). -/
theorem claim_c1_amended (fs : Fs) (l : List DocumentMeta) (hwf : WF fs)
    (h : getAllDocuments fs = .ok l) (d : DocumentMeta) (hd : d ∈ l) :
    ∃ doc : Document,
      getDocument fs d.id = .ok (some doc) ∧
      doc.type = d.type ∧ doc.tags = d.tags ∧ doc.summary = d.summary ∧
      doc.category = (if 2 < (splitSlash d.id).length then d.category else none) ∧
      (doc.title = d.title ∨ doc.title = dashToSpace d.title) ∧
      (doc.date = d.date ∨
        (truthyS d.date = false ∧ doc.date = some ((splitSlash d.id).getLastD ""))) := by
  obtain ⟨t, htmem, lt1, hlt, hdlt⟩ := getAllDocuments_ok_mem h hd
  obtain ⟨tes, hft, p, hp, lp, hlp, hdlp⟩ := procType_ok_mem hlt hdlt
  have ht : noSlash t = true := by
    simp only [List.mem_cons, List.not_mem_nil, or_false] at htmem
    rcases htmem with rfl | rfl | rfl
    · decide
    · decide
    · decide
  obtain ⟨hokT0, hq0⟩ := hwf.2 (t, .dir tes) (findEntry_mem hft)
  have hokT : listingOk tes := hokT0
  have hp1 : noSlash p.1 = true := hokT.2.1 p hp
  rcases procTypeEntry_ok_mem hlp hdlp with
    ⟨es, bc, hdir, hbody, hgb, rfl⟩ |
    ⟨es, hdir, hbody, q, hq, ⟨es2, bc, hq2, hgb, rfl⟩ | ⟨c, hq2, hqmd, rfl⟩⟩ |
    ⟨c, hfile, hmd, rfl⟩
  · -- document folder directly under the type folder
    have hfn : findEntry tes p.1 = some (.dir es) := by
      have hx := findEntry_of_mem tes p hp hokT.1
      rw [hdir] at hx
      exact hx
    have hres := resolveId_two ht hp1 hft hfn
    have hsec : secOk es := by
      have hx := (hq0 p hp).2.1
      rw [hdir] at hx
      exact hx
    have hgb2 : getBodyContent (.dir es) (endsMd (t ++ "/" ++ p.1)) = .ok bc := by
      rw [endsMd_append_slash t p.1]
      exact hgb
    obtain ⟨secs, hget⟩ := getDocument_dir_eq hres hsec hgb2
    refine ⟨dirDoc (t ++ "/" ++ p.1) bc (getMetaFromFile es) secs, hget,
      ?_, ?_, ?_, ?_, ?_, ?_⟩ <;>
      simp [dirDoc, docFolderMeta, splitSlash_pair t p.1 ht hp1]
  · -- subdocument folder inside a category folder
    have hokE : listingOk es := by
      have hx := (hq0 p hp).1
      rw [hdir] at hx
      exact hx
    have hq1 : noSlash q.1 = true := hokE.2.1 q hq
    have hfp : findEntry tes p.1 = some (.dir es) := by
      have hx := findEntry_of_mem tes p hp hokT.1
      rw [hdir] at hx
      exact hx
    have hfq : findEntry es q.1 = some (.dir es2) := by
      have hx := findEntry_of_mem es q hq hokE.1
      rw [hq2] at hx
      exact hx
    have hres := resolveId_three ht hp1 hq1 hft hfp hfq
    have hsec : secOk es2 := by
      have hqmem : q ∈ dirListing p.2 := by
        rw [hdir]
        exact hq
      have hx := (hq0 p hp).2.2 q hqmem
      rw [hq2] at hx
      exact hx
    have hgb2 : getBodyContent (.dir es2) (endsMd (t ++ "/" ++ p.1 ++ "/" ++ q.1)) = .ok bc := by
      rw [endsMd_append_slash (t ++ "/" ++ p.1) q.1]
      exact hgb
    obtain ⟨secs, hget⟩ := getDocument_dir_eq hres hsec hgb2
    refine ⟨dirDoc (t ++ "/" ++ p.1 ++ "/" ++ q.1) bc (getMetaFromFile es2) secs, hget,
      ?_, ?_, ?_, ?_, ?_, ?_⟩ <;>
      simp [dirDoc, subdirMeta, splitSlash_triple t p.1 q.1 ht hp1 hq1]
  · -- markdown file inside a category folder
    have hokE : listingOk es := by
      have hx := (hq0 p hp).1
      rw [hdir] at hx
      exact hx
    have hq1 : noSlash q.1 = true := hokE.2.1 q hq
    have hsq : noSlash (stripMd q.1) = true := noSlash_stripMd hq1
    have hfp : findEntry tes p.1 = some (.dir es) := by
      have hx := findEntry_of_mem tes p hp hokT.1
      rw [hdir] at hx
      exact hx
    obtain ⟨hmdk, hnocap⟩ := hokE.2.2 q hq (by rw [hq2]; rfl) hqmd
    have hmiss : findEntry es (stripMd q.1) = none := findEntry_none es _ hnocap
    have hfq : findEntry es q.1 = some (.file c) := by
      have hx := findEntry_of_mem es q hq hokE.1
      rw [hq2] at hx
      exact hx
    have hres := resolveId_three_md ht hp1 hsq hft hfp hmiss hmdk hfq
    have hget := getDocument_file_eq hres (by simp)
    refine ⟨fileDoc (t ++ "/" ++ p.1 ++ "/" ++ stripMd q.1) c.matter, hget,
      ?_, ?_, ?_, ?_, ?_, ?_⟩ <;>
      simp [fileDoc, subFileMeta, splitSlash_triple t p.1 (stripMd q.1) ht hp1 hsq]
    · rcases htr : truthyS c.matter.1.date with _ | _
      · exact Or.inr ⟨rfl, by rw [jsOrD_falsy htr]⟩
      · exact Or.inl (jsOrD_truthy htr)
  · -- flat markdown file directly under the type folder
    have hsp : noSlash (stripMd p.1) = true := noSlash_stripMd hp1
    obtain ⟨hmdk, hnocap⟩ := hokT.2.2 p hp (by rw [hfile]; rfl) hmd
    have hmiss : findEntry tes (stripMd p.1) = none := findEntry_none tes _ hnocap
    have hfp : findEntry tes p.1 = some (.file c) := by
      have hx := findEntry_of_mem tes p hp hokT.1
      rw [hfile] at hx
      exact hx
    have hres := resolveId_two_md ht hsp hft hmiss hmdk hfp
    have hget := getDocument_file_eq hres (by simp)
    refine ⟨fileDoc (t ++ "/" ++ stripMd p.1) c.matter, hget,
      ?_, ?_, ?_, ?_, ?_, ?_⟩ <;>
      simp [fileDoc, flatFileMeta, splitSlash_pair t (stripMd p.1) ht hsp]
    · rcases htr : truthyS c.matter.1.title with _ | _
      · exact Or.inr (by rw [jsOrD_falsy htr, jsOrD_falsy htr])
      · exact Or.inl (jsOrD_truthy_eq htr)

set_option synthInstance.maxSize 5000 in
/-- Witness for C1's amended statement: the project document folder of
the well-formed example tree round-trips. -/
theorem claim_c1_amended_witness :
    ∃ doc : Document,
      getDocument exC5 "projects/alpha" = .ok (some doc) ∧
      doc.type = "project" ∧ doc.tags = some [] ∧ doc.summary = none ∧
      doc.category = (if 2 < (splitSlash "projects/alpha").length then some "alpha" else none) ∧
      (doc.title = "alpha" ∨ doc.title = dashToSpace "alpha") ∧
      (doc.date = none ∨ (truthyS none = false ∧
        doc.date = some ((splitSlash "projects/alpha").getLastD ""))) :=
  claim_c1_amended exC5
    [{ id := "journals/2020-01-01", title := "2020-01-01", type := "journal",
       category := none, date := some "2020-01-01", tags := some [], summary := none },
     { id := "projects/alpha", title := "alpha", type := "project",
       category := some "alpha", date := none, tags := some [], summary := none }]
    (by decide) (by decide)
    { id := "projects/alpha", title := "alpha", type := "project",
      category := some "alpha", date := none, tags := some [], summary := none }
    (by decide)
